import Mathlib

/-!
# Verification of the `hashring` rebuild engine

A shallow embedding of the gobwas/hashring consistent-hashing ring
(files `ring.go` / its later revision, `point.go`, `item.go`) together
with proofs and refutations of the specification claims.

Modelling conventions:

* The external AVL tree (`gobwas/avl`) is specified only at its interface
  (persistent ordered set with `Insert` returning the pre-existing equal
  element, `Delete` returning the removed element, `Min`, `Successor`,
  in-order traversal).  We embed it as a strictly sorted association list
  keyed by the 64-bit point value; in-order traversal is the list itself.
* Go `float64` weights are embedded as exact rationals `ℚ`.
* Hash values are `Nat` (the concrete 64-bit hash is out of scope; the
  `Hash` field of a `Ring` is user-configurable, so the digest is an
  arbitrary function).  `digest(item)` is `HashFn.base`,
  `digest(item, encodeSuffix(g, i))` is `HashFn.suf item g i`: the suffix
  encoding (two word-sized little-endian integers, generation then index)
  is injective, so the composition with the hash factors through the pair
  `(g, i)`.
* Go points are heap objects aliased by the bucket's point list, the ring
  tree, the collision sets and the fix queue.  A point is uniquely
  identified by the pair `(bucket id, index)`; we keep the mutable part
  (current value, value stack, owning item) in a central store `pts` and
  let all containers hold point identifiers.  The value stack is stored
  with the most recently pushed value first (Go appends at the tail and
  pops from the tail).
* Go panics are embedded as `Except` errors; loops whose termination is
  not structural take explicit fuel, exhaustion being reported as a
  distinct `fuelOut` failure (a model artifact, not a panic).
* One caveat on point identity: the code can leave a point of a deleted
  bucket alive in the ring (see the C1 development below).  If that
  bucket id were inserted again, Go would hold two distinct heap objects
  with the same `(bucket id, index)`, which the central store cannot
  distinguish; the concrete runs used by the claims stay outside that
  region, and the `runOps`-quantified theorems below assert only
  store-independent facts (value sortedness, queue emptiness) that are
  structural in the Go tree as well.
-/

namespace Hashring

/-- A 64-bit point value (collision structure is decided by the digest
function, which is arbitrary, so plain `Nat` is adequate). -/
abbrev Val := Nat

/-- Identity of a point: `(bucket id, index within the bucket)`.
Each bucket owns points at indices `0 .. npoints-1`, so this pair is a
faithful stand-in for the Go pointer identity. -/
abbrev PointId := Nat × Nat

/-- Dynamic state of one point object (`point` in `point.go`):
the owning item, the current value `val` and the `stack` of historical
values (head = most recently pushed; the generation is the length). -/
structure PData where
  item : Nat
  val : Val
  stack : List Val
deriving Repr, DecidableEq

/-- One ring bucket (`bucket` in `item.go`): id (unsuffixed item digest),
the owning item, current weight, and the number of points (the point list
is `[(id,0), …, (id,npoints-1)]`, the dynamic data living in the store). -/
structure Bucket where
  id : Nat
  item : Nat
  weight : ℚ
  npoints : Nat
deriving Repr, DecidableEq

/-- The ring tree: in-order list of `(value, point)` pairs, kept strictly
increasing in the value.  Immutable-on-update, as the AVL tree is. -/
abbrev Tree := List (Val × PointId)

/-- The configurable 64-bit digest: `base x` is `digest(x)` and
`suf x g i` is `digest(x, encodeSuffix(g, i))`. -/
structure HashFn where
  base : Nat → Val
  suf : Nat → Nat → Nat → Val

/-- Failures of the write path: an internal panic (message as in the Go
source) or exhaustion of the model's fuel. -/
inductive EngineFail where
  | internal (msg : String)
  | fuelOut
deriving Repr, DecidableEq

/-- Result monad of the engine functions. -/
abbrev ER (α : Type) := Except EngineFail α

/-- The complete ring state (`Ring` in `ring.go`, minus the locks, which
have no sequential content).  `buckets` is kept sorted by id: the Go map
iteration order is arbitrary, and the model commits to ascending ids as
one admissible schedule. -/
structure RState where
  buckets : List Bucket
  pts : List (PointId × PData)
  ring : Tree
  collisions : List (Val × List PointId)
  fix : List PointId
  minW : ℚ
  maxW : ℚ
deriving Repr, DecidableEq

/-- The zero `Ring` value: an empty ring ready to use. -/
def emptyState : RState := ⟨[], [], [], [], [], 0, 0⟩

/-! ## Point store -/

/-- Read a point object from the store.  Every identifier that ever
reaches a container was created by the grow loop, so the default is
unreachable. -/
def getP (pts : List (PointId × PData)) (p : PointId) : PData :=
  match pts.find? (fun e => decide (e.1 = p)) with
  | some e => e.2
  | none => ⟨0, 0, []⟩

/-- Write (insert or overwrite) a point object. -/
def setP (pts : List (PointId × PData)) (p : PointId) (d : PData) :
    List (PointId × PData) :=
  if pts.any (fun e => decide (e.1 = p)) then
    pts.map (fun e => if e.1 = p then (p, d) else e)
  else
    (p, d) :: pts

/-! ## Collision sets

A collision set (`tree<collision>`) is ordered by `collision.Compare`:
first by bucket id, then by index — lexicographic order on `PointId`. -/

/-- `collision.Compare` order. -/
def pidLtB (a b : PointId) : Bool :=
  a.1 < b.1 || (a.1 = b.1 && a.2 < b.2)

/-- `mustInsertTree` on a collision set: sorted insert, a panic if the
point is already present. -/
def setInsert : List PointId → PointId → ER (List PointId)
  | [], p => .ok [p]
  | q :: rest, p =>
    if p = q then .error (.internal "hashring: internal error: mustInsert failed")
    else if pidLtB p q then .ok (p :: q :: rest)
    else (setInsert rest p).map (fun t => q :: t)

/-- `mustDeleteTree` on a collision set: removal, a panic if absent. -/
def setDelete : List PointId → PointId → ER (List PointId)
  | [], _ => .error (.internal "hashring: internal error: mustDelete failed")
  | q :: rest, p =>
    if p = q then .ok rest
    else (setDelete rest p).map (fun t => q :: t)

/-! ## Collisions map (value → collision set) -/

/-- `r.collisions[v]` — a missing key reads as the zero (empty) tree. -/
def collGet (cs : List (Val × List PointId)) (v : Val) : List PointId :=
  match cs.find? (fun e => decide (e.1 = v)) with
  | some e => e.2
  | none => []

/-- `r.collisions[v] = s` (insert or replace). -/
def collSet (cs : List (Val × List PointId)) (v : Val) (s : List PointId) :
    List (Val × List PointId) :=
  if cs.any (fun e => decide (e.1 = v)) then
    cs.map (fun e => if e.1 = v then (v, s) else e)
  else
    (v, s) :: cs

/-- `delete(r.collisions, v)`. -/
def collErase (cs : List (Val × List PointId)) (v : Val) :
    List (Val × List PointId) :=
  cs.filter (fun e => decide (¬ e.1 = v))

/-- Membership of a key in the collisions map (`c, has := r.collisions[v]`). -/
def collHas (cs : List (Val × List PointId)) (v : Val) : Bool :=
  cs.any (fun e => decide (e.1 = v))

/-! ## Ring tree -/

/-- `tree.Insert(p)`: returns the new tree and the previously present
element with an equal value, if any (in which case the tree is returned
unchanged, as the AVL `Insert` does). -/
def treeInsert : Tree → Val → PointId → Tree × Option PointId
  | [], v, p => ([(v, p)], none)
  | (w, q) :: rest, v, p =>
    if v < w then ((v, p) :: (w, q) :: rest, none)
    else if v = w then ((w, q) :: rest, some q)
    else
      let r := treeInsert rest v p
      ((w, q) :: r.1, r.2)

/-- `tree.Delete(x)` keyed by the value: returns the new tree and the
removed element, if any. -/
def treeDelete : Tree → Val → Tree × Option PointId
  | [], _ => ([], none)
  | (w, q) :: rest, v =>
    if v = w then (rest, some q)
    else
      let r := treeDelete rest v
      ((w, q) :: r.1, r.2)

/-- `tree.Successor(search(d))`: the least element with value strictly
greater than `d` (first such element of the in-order list). -/
def treeSuccessor (t : Tree) (d : Val) : Option (Val × PointId) :=
  t.find? (fun e => decide (d < e.1))

/-- `tree.Min()`. -/
def treeMin (t : Tree) : Option (Val × PointId) :=
  t.head?

/-! ## Collision engine (`Ring.insertPoint` / `Ring.deletePoint`) -/

/-- `Ring.insertPoint(tree, p)` from `ring.go`.  The tree is threaded
explicitly (as in Go); the collisions map, the fix queue and the point
store travel inside the state.  Returns the new tree and the `inserted`
flag. -/
def insertPoint (s : RState) (tree : Tree) (p : PointId) :
    ER (RState × Tree × Bool) :=
  let pv := (getP s.pts p).val
  let c := collGet s.collisions pv
  if c ≠ [] then
    -- An earlier pass reserved this value for a known clique.
    match setInsert c p with
    | .error e => .error e
    | .ok c2 =>
      .ok ({ s with collisions := collSet s.collisions pv c2,
                    fix := s.fix ++ [p] }, tree, false)
  else
    match treeInsert tree pv p with
    | (tree2, none) => .ok (s, tree2, true)
    | (_, some d) =>
      -- Collision detected: evict the occupant d as well.
      match treeDelete tree pv with
      | (_, none) => .error (.internal "hashring: internal error")
      | (tree3, some _) =>
        match setInsert c p with
        | .error e => .error e
        | .ok c1 =>
          match setInsert c1 d with
          | .error e => .error e
          | .ok c2 =>
            .ok ({ s with collisions := collSet s.collisions pv c2,
                          fix := s.fix ++ [d, p] }, tree3, false)

/-- The generation-unwind loop of `Ring.deletePoint` (the inner
`for p.generation() > 0` loop) for one point `p`, accumulating the
deferred twin queues `td` (`toDelete`) and `ti` (`toInsert`).
The fuel dominates the generation of `p`, which drops by one per
iteration. -/
def unwind : Nat → RState → Tree → List PointId → List PointId → PointId →
    ER (RState × Tree × List PointId × List PointId)
  | fuel, s, tree, td, ti, p =>
    match (getP s.pts p).stack with
    | [] => .ok (s, tree, td, ti)
    | v :: rest =>
      match fuel with
      | 0 => .error .fuelOut
      | fuel + 1 =>
        -- p.rewind(): pop one generation.
        let pd := getP s.pts p
        let s1 : RState :=
          { s with pts := setP s.pts p { pd with val := v, stack := rest } }
        if collHas s1.collisions v then
          match setDelete (collGet s1.collisions v) p with
          | .error e => .error e
          | .ok c2 =>
            if c2.length > 1 then
              -- More than one twin remaining: no cleanup yet.
              unwind fuel
                { s1 with collisions := collSet s1.collisions v c2 } tree td ti p
            else
              let s2 : RState := { s1 with collisions := collErase s1.collisions v }
              match c2 with
              | [] => .error (.internal "hashring: Min of empty collision tree")
              | twin :: _ =>
                -- Delete the twin from the ring (keyed by its current
                -- value) and defer its cleanup.
                let tv := (getP s2.pts twin).val
                match treeDelete tree tv with
                | (tree2, some _) =>
                  unwind fuel s2 tree2 (td ++ [twin]) (ti ++ [twin]) p
                | (tree2, none) => unwind fuel s2 tree2 td ti p
        else
          -- Processing a twin whose collisions were removed already.
          unwind fuel s1 tree td ti p

/-- The outer loop of `Ring.deletePoint`: unwind the current point, then
pick the next deferred twin from `toDelete` until the queue is empty,
collecting the twins to re-insert. -/
def delLoop : Nat → RState → Tree → List PointId → List PointId → PointId →
    ER (RState × Tree × List PointId)
  | 0, _, _, _, _, _ => .error .fuelOut
  | fuel + 1, s, tree, td, ti, p =>
    match unwind fuel s tree td ti p with
    | .error e => .error e
    | .ok (s1, tree1, td1, ti1) =>
      match td1 with
      | [] => .ok (s1, tree1, ti1)
      | q :: rest => delLoop fuel s1 tree1 rest ti1 q

/-- The final loop of `Ring.deletePoint`: re-insert the deferred twins
(each may collide again and feed the fix queue). -/
def reinsertLoop : List PointId → RState → Tree → ER (RState × Tree)
  | [], s, tree => .ok (s, tree)
  | p :: rest, s, tree =>
    match insertPoint s tree p with
    | .error e => .error e
    | .ok (s1, tree1, _) => reinsertLoop rest s1 tree1

/-- `Ring.deletePoint(tree, p)` from `ring.go`.  A no-op when no element
with `p`'s current value is live in the tree. -/
def deletePoint (fuel : Nat) (s : RState) (tree : Tree) (p : PointId) :
    ER (RState × Tree × Bool) :=
  match treeDelete tree (getP s.pts p).val with
  | (tree1, none) => .ok (s, tree1, false)
  | (tree1, some _) =>
    match delLoop fuel s tree1 [] [] p with
    | .error e => .error e
    | .ok (s1, tree2, ti) =>
      match reinsertLoop ti s1 tree2 with
      | .error e => .error e
      | .ok (s2, tree3) => .ok (s2, tree3, true)

/-! ## Weight → point-count interpolation (`line`, `Ring.numPoints`) -/

/-- Go's `int(x)` conversion from `float64`: truncation toward zero. -/
def goTrunc (q : ℚ) : ℤ :=
  if q < 0 then -(Int.floor (-q)) else Int.floor q

/-- `Ring.magicFactor()`: the configured factor, or 1020 when unset. -/
def magicFactor (magic : Nat) : ℚ :=
  if 0 < magic then (magic : ℚ) else 1020

/-- `line(x0, y0, x1, y1)` from `ring.go`: the interpolated counting
function, or the "malformed points" panic when the two anchors share an
x-coordinate but disagree in y. -/
def line (x0 y0 x1 y1 : ℚ) : ER (ℚ → ℤ) :=
  if x0 = x1 ∧ ¬ y0 = y1 then
    .error (.internal "hashring: internal error: malformed points")
  else if x0 = x1 then
    .ok (fun _ => goTrunc (y0 + 1/2))
  else
    .ok (fun x => goTrunc ((y1 - y0) / (x1 - x0) * (x - x0) + y0 + 1/2))

/-- `Ring.numPoints()` from the current revision of `ring.go`: the zero
function when no live bucket remains, otherwise the line through
`(maxWeight, magicFactor())` and
`(minWeight, Ceil(magicFactor()) * (minWeight/maxWeight))`. -/
def numPoints (magic : Nat) (minW maxW : ℚ) : ER (ℚ → ℤ) :=
  if maxW = 0 then .ok (fun _ => 0)
  else
    line maxW (magicFactor magic)
      minW ((Int.ceil (magicFactor magic) : ℚ) * (minW / maxW))

/-! ## Rebuild loop (`Ring.rebuild`) -/

/-- The shrink half of the per-bucket reconciliation: pop points from the
tail of the bucket's point list while it is longer than the target.
Recursion is structural in the current point count. -/
def shrinkB (fuel : Nat) (bid : Nat) (target : ℤ) :
    Nat → RState → Tree → ER (RState × Tree × Nat)
  | 0, s, tree =>
    if (0 : ℤ) ≤ target then .ok (s, tree, 0)
    else .error (.internal "index out of range")
  | n + 1, s, tree =>
    if ((n : ℤ) + 1) ≤ target then .ok (s, tree, n + 1)
    else
      match deletePoint fuel s tree (bid, n) with
      | .error e => .error e
      | .ok (s1, tree1, _) => shrinkB fuel bid target n s1 tree1

/-- The grow half: create fresh generation-0 points at ascending indices
until the target is reached.  `gas` is the number of points still to
create. -/
def growB (H : HashFn) (bid : Nat) (item : Nat) :
    Nat → Nat → RState → Tree → ER (RState × Tree × Nat)
  | 0, npts, s, tree => .ok (s, tree, npts)
  | gas + 1, npts, s, tree =>
    let v := H.suf item 0 npts
    let s1 : RState := { s with pts := setP s.pts (bid, npts) ⟨item, v, []⟩ }
    match insertPoint s1 tree (bid, npts) with
    | .error e => .error e
    | .ok (s2, tree1, _) => growB H bid item gas (npts + 1) s2 tree1

/-- Update the recorded point count of a bucket. -/
def setBucketNp (bs : List Bucket) (bid : Nat) (np : Nat) : List Bucket :=
  bs.map (fun b => if b.id = bid then { b with npoints := np } else b)

/-- Reconcile one bucket with its target point count, then drop it from
the buckets map when its weight is zero. -/
def processBucket (H : HashFn) (fuel : Nat) (numF : ℚ → ℤ)
    (s : RState) (tree : Tree) (bid : Nat) : ER (RState × Tree) :=
  match s.buckets.find? (fun b => decide (b.id = bid)) with
  | none => .ok (s, tree)
  | some b =>
    let size : ℤ := if b.weight ≠ 0 then numF b.weight else 0
    match shrinkB fuel bid size b.npoints s tree with
    | .error e => .error e
    | .ok (s1, tree1, np1) =>
      match growB H bid b.item ((size - (np1 : ℤ)).toNat) np1 s1 tree1 with
      | .error e => .error e
      | .ok (s2, tree2, np2) =>
        let s3 : RState := { s2 with buckets := setBucketNp s2.buckets bid np2 }
        let s4 : RState :=
          if b.weight = 0 then
            { s3 with buckets := s3.buckets.filter (fun b2 => decide (¬ b2.id = bid)) }
          else s3
        .ok (s4, tree2)

/-- One pass of the `for id, b := range r.buckets` loop over a snapshot
of the bucket ids. -/
def bucketPass (H : HashFn) (fuel : Nat) (numF : ℚ → ℤ) :
    List Nat → RState → Tree → ER (RState × Tree)
  | [], s, tree => .ok (s, tree)
  | bid :: rest, s, tree =>
    match processBucket H fuel numF s tree bid with
    | .error e => .error e
    | .ok (s1, tree1) => bucketPass H fuel numF rest s1 tree1

/-- The fix-queue drain loop of `Ring.rebuild`: pop the front point,
digest the item with the suffix `(generation+1, index)`, `proceed` to the
fresh value and re-insert; runs until the queue is empty. -/
def drain (H : HashFn) : Nat → RState → Tree → ER (RState × Tree)
  | fuel, s, tree =>
    match s.fix with
    | [] => .ok (s, tree)
    | p :: rest =>
      match fuel with
      | 0 => .error .fuelOut
      | fuel + 1 =>
        let s1 : RState := { s with fix := rest }
        let pd := getP s1.pts p
        let g := pd.stack.length
        let v := H.suf pd.item (g + 1) p.2
        -- p.proceed(v)
        let s2 : RState :=
          { s1 with pts := setP s1.pts p { pd with val := v, stack := pd.val :: pd.stack } }
        match insertPoint s2 tree p with
        | .error e => .error e
        | .ok (s3, tree1, _) => drain H fuel s3 tree1

/-- The outer `for { … }` of `Ring.rebuild`: a full bucket pass, then the
drain; repeat while the fix queue is non-empty at the end of the pass
(after a completed drain it never is). -/
def rebuildLoop (H : HashFn) (numF : ℚ → ℤ) :
    Nat → RState → Tree → ER (RState × Tree)
  | 0, _, _ => .error .fuelOut
  | fuel + 1, s, tree =>
    match bucketPass H fuel numF (s.buckets.map (fun b => b.id)) s tree with
    | .error e => .error e
    | .ok (s1, tree1) =>
      match drain H fuel s1 tree1 with
      | .error e => .error e
      | .ok (s2, tree2) =>
        if s2.fix = [] then .ok (s2, tree2)
        else rebuildLoop H numF fuel s2 tree2

/-- `Ring.rebuild()`: compute the counting function once, run the loop on
a local root, publish the new root. -/
def rebuild (H : HashFn) (magic : Nat) (fuel : Nat) (s : RState) : ER RState :=
  match numPoints magic s.minW s.maxW with
  | .error e => .error e
  | .ok numF =>
    match rebuildLoop H numF fuel s s.ring with
    | .error e => .error e
    | .ok (s1, tree) => .ok { s1 with ring := tree }

/-! ## Weight bound maintenance -/

/-- `Ring.updateWeight(w)`: extend the min/max weight bounds (0 acts as
the unset sentinel).  The two Go conditionals are independent (the first
writes only the minimum, the second reads only the maximum), so they are
rendered as one update. -/
def updateWeightF (s : RState) (w : ℚ) : RState :=
  { s with
    minW := if s.minW = 0 ∨ w < s.minW then w else s.minW,
    maxW := if s.maxW = 0 ∨ s.maxW < w then w else s.maxW }

/-- `Ring.changeWeight(prev, next)`: extend the bounds unless the previous
weight was extremal, in which case rescan the live buckets. -/
def changeWeightF (s : RState) (prev next : ℚ) : RState :=
  if ¬ prev = s.minW ∧ ¬ prev = s.maxW then updateWeightF s next
  else
    let s1 : RState := { s with minW := 0, maxW := 0 }
    s1.buckets.foldl
      (fun t b => if 0 < b.weight then updateWeightF t b.weight else t) s1

/-! ## Public operations (`Ring.Insert` / `Update` / `Delete` / `Get` / `Has`) -/

/-- Result of a public write operation: success, a returned usage error
(the state is unchanged, kept in the constructor for reference), the
weight-check panic, or an engine failure. -/
inductive Outcome where
  | ok (s : RState)
  | err (msg : String) (s : RState)
  | weightPanicked
  | failed (e : EngineFail)
deriving Repr, DecidableEq

/-- Insert a bucket into the id-sorted buckets list. -/
def insertBucket : List Bucket → Bucket → List Bucket
  | [], b => [b]
  | c :: rest, b =>
    if b.id < c.id then b :: c :: rest else c :: insertBucket rest b

/-- `Ring.Insert(x, w)`. -/
def insertOp (H : HashFn) (magic fuel : Nat) (s : RState) (x : Nat) (w : ℚ) :
    Outcome :=
  if w ≤ 0 then .weightPanicked
  else
    let id := H.base x
    if s.buckets.any (fun b => decide (b.id = id)) then
      .err "hashring: item already exists" s
    else
      let s1 : RState := { s with buckets := insertBucket s.buckets ⟨id, x, w, 0⟩ }
      let s2 := updateWeightF s1 w
      match rebuild H magic fuel s2 with
      | .ok s3 => .ok s3
      | .error e => .failed e

/-- `Ring.update(x, w)` (the shared body of `Update` and `Delete`). -/
def updateInner (H : HashFn) (magic fuel : Nat) (s : RState) (x : Nat) (w : ℚ) :
    Outcome :=
  let id := H.base x
  match s.buckets.find? (fun b => decide (b.id = id)) with
  | none => .err "hashring: item doesn't exist" s
  | some b =>
    let prev := b.weight
    let s1 : RState :=
      { s with buckets :=
          s.buckets.map (fun c => if c.id = id then { c with weight := w } else c) }
    let s2 := changeWeightF s1 prev w
    match rebuild H magic fuel s2 with
    | .ok s3 => .ok s3
    | .error e => .failed e

/-- `Ring.Update(x, w)`. -/
def updateOp (H : HashFn) (magic fuel : Nat) (s : RState) (x : Nat) (w : ℚ) :
    Outcome :=
  if w ≤ 0 then .weightPanicked else updateInner H magic fuel s x w

/-- `Ring.Delete(x)`. -/
def deleteOp (H : HashFn) (magic fuel : Nat) (s : RState) (x : Nat) : Outcome :=
  updateInner H magic fuel s x 0

/-- `Ring.Get(v)` restricted to the ring tree: the successor of the
digest, wrapping to the minimum, as a `(value, point)` pair. -/
def getPoint (t : Tree) (d : Val) : Option (Val × PointId) :=
  match treeSuccessor t d with
  | some e => some e
  | none => treeMin t

/-- `Ring.Get(v)`: the item owning the successor point (`none` only when
the ring is empty). -/
def getOp (H : HashFn) (s : RState) (x : Nat) : Option Nat :=
  match getPoint s.ring (H.base x) with
  | some e => some (getP s.pts e.2).item
  | none => none

/-- `Ring.Has(x)`. -/
def hasOp (H : HashFn) (s : RState) (x : Nat) : Bool :=
  s.buckets.any (fun b => decide (b.id = H.base x))

/-! ## Views used by the claims -/

/-- The in-order ring content as `(value, bucket id, index, generation)`
quadruples — the data compared by the order-independence claims. -/
def ringView (s : RState) : List (Val × Nat × Nat × Nat) :=
  s.ring.map (fun e => (e.1, e.2.1, e.2.2, (getP s.pts e.2).stack.length))

/-- The end state an operation sequence produces at the interface level:
the live `(id, item, weight)` triples. -/
def weightsView (s : RState) : List (Nat × Nat × ℚ) :=
  s.buckets.map (fun b => (b.id, b.item, b.weight))

/-- Operations of the public write interface. -/
inductive Op where
  | ins (x : Nat) (w : ℚ)
  | upd (x : Nat) (w : ℚ)
  | del (x : Nat)
deriving Repr, DecidableEq

/-- Apply one operation. -/
def applyOp (H : HashFn) (magic fuel : Nat) (s : RState) : Op → Outcome
  | .ins x w => insertOp H magic fuel s x w
  | .upd x w => updateOp H magic fuel s x w
  | .del x => deleteOp H magic fuel s x

/-- Run a sequence of operations from a state; a usage error leaves the
state unchanged (as in Go) and the run continues; a panic or fuel
exhaustion aborts the run. -/
def runOps (H : HashFn) (magic fuel : Nat) : List Op → RState → Option RState
  | [], s => some s
  | op :: rest, s =>
    match applyOp H magic fuel s op with
    | .ok s1 => runOps H magic fuel rest s1
    | .err _ s1 => runOps H magic fuel rest s1
    | .weightPanicked => none
    | .failed _ => none

/-! ## Sortedness of the ring tree

The AVL tree keeps its elements strictly ordered by value; in the model
this is strict pairwise ordering of the in-order list.  The lemmas below
show that every tree produced by the engine keeps this invariant, which
is exactly the "no two points with the same value" half of the
uniqueness invariant. -/

/-- The ring tree invariant: values strictly increase along the in-order
traversal (hence are pairwise distinct). -/
def TSorted (t : Tree) : Prop :=
  List.Pairwise (fun a b => a.1 < b.1) t

theorem tsorted_nil : TSorted [] := List.Pairwise.nil

/-- `treeInsert` preserves sortedness, and every element of the result is
an old element or the new pair. -/
theorem treeInsert_sorted (v : Val) (p : PointId) :
    ∀ t : Tree, TSorted t →
      TSorted (treeInsert t v p).1 ∧
      ∀ e ∈ (treeInsert t v p).1, e ∈ t ∨ e = (v, p) := by
  intro t
  induction t with
  | nil =>
    intro _
    refine ⟨List.pairwise_singleton _ _, ?_⟩
    intro e he
    right
    simpa [treeInsert] using he
  | cons hd tl ih =>
    intro hs
    obtain ⟨hhd, htl⟩ := List.pairwise_cons.mp hs
    by_cases hlt : v < hd.1
    · have hres : (treeInsert (hd :: tl) v p).1 = (v, p) :: hd :: tl := by
        obtain ⟨w, q⟩ := hd
        simp only at hlt
        simp [treeInsert, hlt]
      rw [hres]
      constructor
      · refine List.pairwise_cons.mpr ⟨?_, hs⟩
        intro b hb
        rcases List.mem_cons.mp hb with hb | hb
        · simpa [hb] using hlt
        · exact lt_trans hlt (hhd b hb)
      · intro e he
        rcases List.mem_cons.mp he with he | he
        · right; exact he
        · left; exact he
    · by_cases heq : v = hd.1
      · have hres : (treeInsert (hd :: tl) v p).1 = hd :: tl := by
          obtain ⟨w, q⟩ := hd
          simp only at hlt heq
          simp [treeInsert, hlt, heq]
        rw [hres]
        exact ⟨hs, fun e he => Or.inl he⟩
      · obtain ⟨ihs, ihm⟩ := ih htl
        have hgt : hd.1 < v := lt_of_le_of_ne (not_lt.mp hlt) (fun h => heq h.symm)
        have hres : (treeInsert (hd :: tl) v p).1 = hd :: (treeInsert tl v p).1 := by
          obtain ⟨w, q⟩ := hd
          simp only at hlt heq
          simp [treeInsert, hlt, heq]
        rw [hres]
        constructor
        · refine List.pairwise_cons.mpr ⟨?_, ihs⟩
          intro b hb
          rcases ihm b hb with hb | hb
          · exact hhd b hb
          · simpa [hb] using hgt
        · intro e he
          rcases List.mem_cons.mp he with he | he
          · left; exact List.mem_cons.mpr (Or.inl he)
          · rcases ihm e he with h | h
            · left; exact List.mem_cons.mpr (Or.inr h)
            · right; exact h

/-- `treeDelete` preserves sortedness; the result's elements all come
from the input. -/
theorem treeDelete_sorted (v : Val) :
    ∀ t : Tree, TSorted t →
      TSorted (treeDelete t v).1 ∧
      ∀ e ∈ (treeDelete t v).1, e ∈ t := by
  intro t
  induction t with
  | nil => intro _; exact ⟨List.Pairwise.nil, fun e he => by simp [treeDelete] at he⟩
  | cons hd tl ih =>
    intro hs
    obtain ⟨hhd, htl⟩ := List.pairwise_cons.mp hs
    by_cases heq : v = hd.1
    · have hres : (treeDelete (hd :: tl) v).1 = tl := by
        obtain ⟨w, q⟩ := hd
        simp only at heq
        simp [treeDelete, heq]
      rw [hres]
      exact ⟨htl, fun e he => List.mem_cons.mpr (Or.inr he)⟩
    · obtain ⟨ihs, ihm⟩ := ih htl
      have hres : (treeDelete (hd :: tl) v).1 = hd :: (treeDelete tl v).1 := by
        obtain ⟨w, q⟩ := hd
        simp only at heq
        simp [treeDelete, heq]
      rw [hres]
      constructor
      · exact List.pairwise_cons.mpr ⟨fun b hb => hhd b (ihm b hb), ihs⟩
      · intro e he
        rcases List.mem_cons.mp he with he | he
        · exact List.mem_cons.mpr (Or.inl he)
        · exact List.mem_cons.mpr (Or.inr (ihm e he))

/-- Equation form of `treeInsert_sorted`. -/
theorem treeInsert_sorted_eq {t t' : Tree} {v : Val} {p : PointId}
    {r : Option PointId} (hs : TSorted t) (h : treeInsert t v p = (t', r)) :
    TSorted t' := by
  have h1 := (treeInsert_sorted v p t hs).1
  rw [h] at h1
  exact h1

/-- Equation form of `treeDelete_sorted`. -/
theorem treeDelete_sorted_eq {t t' : Tree} {v : Val}
    {r : Option PointId} (hs : TSorted t) (h : treeDelete t v = (t', r)) :
    TSorted t' := by
  have h1 := (treeDelete_sorted v t hs).1
  rw [h] at h1
  exact h1

/-- `insertPoint` keeps the ring tree strictly sorted and does not touch
the buckets map. -/
theorem insertPoint_inv {s : RState} {tree : Tree} {p : PointId}
    {s' : RState} {tree' : Tree} {bl : Bool}
    (hs : TSorted tree) (h : insertPoint s tree p = .ok (s', tree', bl)) :
    TSorted tree' ∧ s'.buckets = s.buckets := by
  unfold insertPoint at h
  simp only [] at h
  split at h
  · split at h
    · exact absurd h (by simp)
    · exact (by cases h; exact ⟨hs, rfl⟩)
  · split at h
    next tree2 heq =>
      cases h
      have := (treeInsert_sorted (getP s.pts p).val p tree hs).1
      rw [heq] at this
      exact ⟨this, rfl⟩
    next d heq =>
      split at h
      · exact absurd h (by simp)
      next tree3 d' heq2 =>
        split at h
        · exact absurd h (by simp)
        · split at h
          · exact absurd h (by simp)
          · cases h
            have := (treeDelete_sorted (getP s.pts p).val tree hs).1
            rw [heq2] at this
            exact ⟨this, rfl⟩

/-- The generation-unwind loop keeps the tree sorted and the buckets map
untouched. -/
theorem unwind_inv :
    ∀ (fuel : Nat) (s : RState) (tree : Tree) (td ti : List PointId) (p : PointId)
      {s' : RState} {tree' : Tree} {td' ti' : List PointId},
      TSorted tree → unwind fuel s tree td ti p = .ok (s', tree', td', ti') →
      TSorted tree' ∧ s'.buckets = s.buckets := by
  intro fuel
  induction fuel with
  | zero =>
    intro s tree td ti p s' tree' td' ti' hs h
    unfold unwind at h
    split at h
    · cases h; exact ⟨hs, rfl⟩
    · exact absurd h (by simp)
  | succ n ih =>
    intro s tree td ti p s' tree' td' ti' hs h
    unfold unwind at h
    split at h
    · cases h; exact ⟨hs, rfl⟩
    · simp only [] at h
      split at h
      · split at h
        · exact absurd h (by simp)
        · split at h
          · have hr := ih _ _ _ _ _ hs h
            exact ⟨hr.1, hr.2⟩
          · split at h
            · exact absurd h (by simp)
            · split at h
              next tree2 q heq =>
                have hr := ih _ _ _ _ _ (treeDelete_sorted_eq hs heq) h
                exact ⟨hr.1, hr.2⟩
              next tree2 heq =>
                have hr := ih _ _ _ _ _ (treeDelete_sorted_eq hs heq) h
                exact ⟨hr.1, hr.2⟩
      · have hr := ih _ _ _ _ _ hs h
        exact ⟨hr.1, hr.2⟩

/-- The outer twin loop of `deletePoint` keeps the tree sorted and the
buckets map untouched. -/
theorem delLoop_inv :
    ∀ (fuel : Nat) (s : RState) (tree : Tree) (td ti : List PointId) (p : PointId)
      {s' : RState} {tree' : Tree} {ti' : List PointId},
      TSorted tree → delLoop fuel s tree td ti p = .ok (s', tree', ti') →
      TSorted tree' ∧ s'.buckets = s.buckets := by
  intro fuel
  induction fuel with
  | zero =>
    intro s tree td ti p s' tree' ti' hs h
    exact absurd h (by simp [delLoop])
  | succ n ih =>
    intro s tree td ti p s' tree' ti' hs h
    unfold delLoop at h
    split at h
    · exact absurd h (by simp)
    next s1 tree1 td1 ti1 heq =>
      obtain ⟨hs1, hb1⟩ := unwind_inv n s tree td ti p hs heq
      split at h
      · cases h; exact ⟨hs1, hb1⟩
      · obtain ⟨hs2, hb2⟩ := ih _ _ _ _ _ hs1 h
        exact ⟨hs2, hb2.trans hb1⟩

/-- The twin re-insert loop keeps the tree sorted and the buckets map
untouched. -/
theorem reinsertLoop_inv :
    ∀ (ti : List PointId) (s : RState) (tree : Tree)
      {s' : RState} {tree' : Tree},
      TSorted tree → reinsertLoop ti s tree = .ok (s', tree') →
      TSorted tree' ∧ s'.buckets = s.buckets := by
  intro ti
  induction ti with
  | nil =>
    intro s tree s' tree' hs h
    cases h; exact ⟨hs, rfl⟩
  | cons p rest ih =>
    intro s tree s' tree' hs h
    unfold reinsertLoop at h
    split at h
    · exact absurd h (by simp)
    next s1 tree1 bl heq =>
      obtain ⟨hs1, hb1⟩ := insertPoint_inv hs heq
      obtain ⟨hs2, hb2⟩ := ih _ _ hs1 h
      exact ⟨hs2, hb2.trans hb1⟩

/-- `deletePoint` keeps the tree sorted and the buckets map untouched. -/
theorem deletePoint_inv {fuel : Nat} {s : RState} {tree : Tree} {p : PointId}
    {s' : RState} {tree' : Tree} {bl : Bool}
    (hs : TSorted tree) (h : deletePoint fuel s tree p = .ok (s', tree', bl)) :
    TSorted tree' ∧ s'.buckets = s.buckets := by
  unfold deletePoint at h
  split at h
  next tree1 heq =>
    cases h
    exact ⟨treeDelete_sorted_eq hs heq, rfl⟩
  next tree1 q heq =>
    have hs1 : TSorted tree1 := treeDelete_sorted_eq hs heq
    split at h
    · exact absurd h (by simp)
    next s1 tree2 ti heq2 =>
      obtain ⟨hs2, hb2⟩ := delLoop_inv fuel s tree1 [] [] p hs1 heq2
      split at h
      · exact absurd h (by simp)
      next s2 tree3 heq3 =>
        cases h
        obtain ⟨hs3, hb3⟩ := reinsertLoop_inv ti s1 tree2 hs2 heq3
        exact ⟨hs3, hb3.trans hb2⟩

/-- The shrink loop keeps the tree sorted and the buckets map untouched. -/
theorem shrinkB_inv {fuel bid : Nat} {target : ℤ} :
    ∀ (npts : Nat) (s : RState) (tree : Tree)
      {s' : RState} {tree' : Tree} {np' : Nat},
      TSorted tree → shrinkB fuel bid target npts s tree = .ok (s', tree', np') →
      TSorted tree' ∧ s'.buckets = s.buckets := by
  intro npts
  induction npts with
  | zero =>
    intro s tree s' tree' np' hs h
    unfold shrinkB at h
    split at h
    · cases h; exact ⟨hs, rfl⟩
    · exact absurd h (by simp)
  | succ n ih =>
    intro s tree s' tree' np' hs h
    unfold shrinkB at h
    split at h
    · cases h; exact ⟨hs, rfl⟩
    · split at h
      · exact absurd h (by simp)
      next s1 tree1 bl heq =>
        obtain ⟨hs1, hb1⟩ := deletePoint_inv hs heq
        have hr := ih _ _ hs1 h
        exact ⟨hr.1, hr.2.trans hb1⟩

/-- The grow loop keeps the tree sorted and the buckets map untouched. -/
theorem growB_inv {H : HashFn} {bid item : Nat} :
    ∀ (gas npts : Nat) (s : RState) (tree : Tree)
      {s' : RState} {tree' : Tree} {np' : Nat},
      TSorted tree → growB H bid item gas npts s tree = .ok (s', tree', np') →
      TSorted tree' ∧ s'.buckets = s.buckets := by
  intro gas
  induction gas with
  | zero =>
    intro npts s tree s' tree' np' hs h
    cases h; exact ⟨hs, rfl⟩
  | succ n ih =>
    intro npts s tree s' tree' np' hs h
    unfold growB at h
    simp only [] at h
    split at h
    · exact absurd h (by simp)
    next s2 tree1 bl heq =>
      obtain ⟨hs1, hb1⟩ := insertPoint_inv hs heq
      obtain ⟨hs2, hb2⟩ := ih _ _ _ hs1 h
      exact ⟨hs2, hb2.trans hb1⟩

/-- Reconciling one bucket keeps the tree sorted; bucket weights are
never changed and only zero-weight buckets are dropped. -/
theorem processBucket_sorted {H : HashFn} {fuel : Nat} {numF : ℚ → ℤ}
    {s : RState} {tree : Tree} {bid : Nat} {s' : RState} {tree' : Tree}
    (hs : TSorted tree) (h : processBucket H fuel numF s tree bid = .ok (s', tree')) :
    TSorted tree' := by
  unfold processBucket at h
  split at h
  · cases h; exact hs
  next b heq =>
    simp only [] at h
    split at h
    · exact absurd h (by simp)
    next s1 tree1 np1 heq1 =>
      obtain ⟨hs1, _⟩ := shrinkB_inv b.npoints s tree hs heq1
      split at h
      · exact absurd h (by simp)
      next s2 tree2 np2 heq2 =>
        obtain ⟨hs2, _⟩ := growB_inv _ _ s1 tree1 hs1 heq2
        cases h
        exact hs2

/-- A full bucket pass keeps the tree sorted. -/
theorem bucketPass_sorted {H : HashFn} {fuel : Nat} {numF : ℚ → ℤ} :
    ∀ (ids : List Nat) (s : RState) (tree : Tree) {s' : RState} {tree' : Tree},
      TSorted tree → bucketPass H fuel numF ids s tree = .ok (s', tree') →
      TSorted tree' := by
  intro ids
  induction ids with
  | nil =>
    intro s tree s' tree' hs h
    cases h; exact hs
  | cons bid rest ih =>
    intro s tree s' tree' hs h
    unfold bucketPass at h
    split at h
    · exact absurd h (by simp)
    next s1 tree1 heq =>
      exact ih _ _ (processBucket_sorted hs heq) h

/-- The drain loop keeps the tree sorted, leaves the buckets map
untouched, and terminates only with an empty fix queue. -/
theorem drain_inv {H : HashFn} :
    ∀ (fuel : Nat) (s : RState) (tree : Tree) {s' : RState} {tree' : Tree},
      TSorted tree → drain H fuel s tree = .ok (s', tree') →
      TSorted tree' ∧ s'.buckets = s.buckets ∧ s'.fix = [] := by
  intro fuel
  induction fuel with
  | zero =>
    intro s tree s' tree' hs h
    unfold drain at h
    split at h
    next hfix =>
      cases h
      exact ⟨hs, rfl, hfix⟩
    · exact absurd h (by simp)
  | succ n ih =>
    intro s tree s' tree' hs h
    unfold drain at h
    split at h
    next hfix =>
      cases h
      exact ⟨hs, rfl, hfix⟩
    · simp only [] at h
      split at h
      · exact absurd h (by simp)
      next s3 tree1 bl heq =>
        obtain ⟨hs1, hb1⟩ := insertPoint_inv hs heq
        obtain ⟨hs2, hb2, hf2⟩ := ih _ _ hs1 h
        exact ⟨hs2, hb2.trans hb1, hf2⟩

/-- The rebuild loop keeps the tree sorted and ends with an empty fix
queue. -/
theorem rebuildLoop_inv {H : HashFn} {numF : ℚ → ℤ} :
    ∀ (fuel : Nat) (s : RState) (tree : Tree) {s' : RState} {tree' : Tree},
      TSorted tree → rebuildLoop H numF fuel s tree = .ok (s', tree') →
      TSorted tree' ∧ s'.fix = [] := by
  intro fuel
  induction fuel with
  | zero =>
    intro s tree s' tree' hs h
    exact absurd h (by simp [rebuildLoop])
  | succ n ih =>
    intro s tree s' tree' hs h
    unfold rebuildLoop at h
    split at h
    · exact absurd h (by simp)
    next s1 tree1 heq =>
      have hs1 := bucketPass_sorted _ s tree hs heq
      split at h
      · exact absurd h (by simp)
      next s2 tree2 heq2 =>
        obtain ⟨hs2, _, hf2⟩ := drain_inv n s1 tree1 hs1 heq2
        rw [if_pos hf2] at h
        cases h
        exact ⟨hs2, hf2⟩

/-- `Ring.rebuild` keeps the published ring sorted and leaves the fix
queue empty. -/
theorem rebuild_inv {H : HashFn} {magic fuel : Nat} {s s' : RState}
    (hs : TSorted s.ring) (h : rebuild H magic fuel s = .ok s') :
    TSorted s'.ring ∧ s'.fix = [] := by
  unfold rebuild at h
  split at h
  · exact absurd h (by simp)
  next numF heq =>
    split at h
    · exact absurd h (by simp)
    next s1 tree heq1 =>
      cases h
      have hr := rebuildLoop_inv fuel s s.ring hs heq1
      exact ⟨hr.1, hr.2⟩

/-- Weight-bound maintenance does not touch the ring. -/
theorem updateWeightF_ring (s : RState) (w : ℚ) :
    (updateWeightF s w).ring = s.ring := rfl

/-- Weight-bound rescan does not touch the ring. -/
theorem changeWeightF_ring (s : RState) (prev next : ℚ) :
    (changeWeightF s prev next).ring = s.ring := by
  unfold changeWeightF
  split
  · rfl
  · have hfold : ∀ (l : List Bucket) (t : RState),
        (l.foldl (fun t b => if 0 < b.weight then updateWeightF t b.weight else t) t).ring
          = t.ring := by
      intro l
      induction l with
      | nil => intro t; rfl
      | cons b rest ih =>
        intro t
        show (rest.foldl _ (if 0 < b.weight then updateWeightF t b.weight else t)).ring = t.ring
        rw [ih]
        split <;> rfl
    exact hfold s.buckets _

/-- The state invariant maintained between public operations: a strictly
sorted ring tree and an empty fix queue. -/
def WInv (s : RState) : Prop := TSorted s.ring ∧ s.fix = []

theorem winv_empty : WInv emptyState := ⟨List.Pairwise.nil, rfl⟩

/-- `Ring.Insert` re-establishes the invariant on success and returns
the state unchanged on a usage error. -/
theorem insertOp_winv {H : HashFn} {magic fuel : Nat} {s : RState}
    {x : Nat} {w : ℚ} (hi : WInv s) :
    (∀ s', insertOp H magic fuel s x w = .ok s' → WInv s') ∧
    (∀ m s', insertOp H magic fuel s x w = .err m s' → WInv s') := by
  obtain ⟨hsr, hfx⟩ := hi
  constructor
  · intro s' h
    unfold insertOp at h
    simp only [] at h
    split at h
    · exact absurd h (by simp)
    · split at h
      · exact absurd h (by simp)
      · split at h
        next s3 heq =>
          cases h
          refine rebuild_inv ?_ heq
          show TSorted s.ring
          exact hsr
        · exact absurd h (by simp)
  · intro m s' h
    unfold insertOp at h
    simp only [] at h
    split at h
    · exact absurd h (by simp)
    · split at h
      · cases h; exact ⟨hsr, hfx⟩
      · split at h <;> exact absurd h (by simp)

/-- `Ring.update` (the body of `Update` and `Delete`) re-establishes the
invariant on success and returns the state unchanged on a usage error. -/
theorem updateInner_winv {H : HashFn} {magic fuel : Nat} {s : RState}
    {x : Nat} {w : ℚ} (hi : WInv s) :
    (∀ s', updateInner H magic fuel s x w = .ok s' → WInv s') ∧
    (∀ m s', updateInner H magic fuel s x w = .err m s' → WInv s') := by
  obtain ⟨hsr, hfx⟩ := hi
  constructor
  · intro s' h
    unfold updateInner at h
    simp only [] at h
    split at h
    · exact absurd h (by simp)
    next b heq0 =>
      split at h
      next s3 heq =>
        cases h
        refine rebuild_inv ?_ heq
        rw [changeWeightF_ring]
        show TSorted s.ring
        exact hsr
      · exact absurd h (by simp)
  · intro m s' h
    unfold updateInner at h
    simp only [] at h
    split at h
    · cases h; exact ⟨hsr, hfx⟩
    next b heq0 =>
      split at h <;> exact absurd h (by simp)

/-- Every public operation that completes (successfully or with a usage
error) re-establishes the invariant. -/
theorem applyOp_winv {H : HashFn} {magic fuel : Nat} {s : RState} {op : Op}
    (hi : WInv s) :
    (∀ s', applyOp H magic fuel s op = .ok s' → WInv s') ∧
    (∀ m s', applyOp H magic fuel s op = .err m s' → WInv s') := by
  cases op with
  | ins x w => exact insertOp_winv hi
  | upd x w =>
    constructor
    · intro s' h
      replace h : updateOp H magic fuel s x w = .ok s' := h
      unfold updateOp at h
      split at h
      · exact absurd h (by simp)
      · exact (updateInner_winv hi).1 s' h
    · intro m s' h
      replace h : updateOp H magic fuel s x w = .err m s' := h
      unfold updateOp at h
      split at h
      · exact absurd h (by simp)
      · exact (updateInner_winv hi).2 m s' h
  | del x =>
    constructor
    · intro s' h
      exact (updateInner_winv hi).1 s' h
    · intro m s' h
      exact (updateInner_winv hi).2 m s' h

/-- `runOps` preserves the invariant. -/
theorem runOps_winv {H : HashFn} {magic fuel : Nat} :
    ∀ (ops : List Op) (s : RState) {s' : RState},
      WInv s → runOps H magic fuel ops s = some s' → WInv s' := by
  intro ops
  induction ops with
  | nil =>
    intro s s' hi h
    cases h; exact hi
  | cons op rest ih =>
    intro s s' hi h
    unfold runOps at h
    split at h
    next s1 heq => exact ih _ ((applyOp_winv hi).1 s1 heq) h
    next m s1 heq => exact ih _ ((applyOp_winv hi).2 m s1 heq) h
    · exact absurd h (by simp)
    · exact absurd h (by simp)

/-!
## Model validation against the repository's own collision tests

Before the order-independence claim, two sanity checks that the embedded
collision engine reproduces the behaviors the repository's permutation
tests assert on the non-defective paths: a two-item collision resolved
identically in either insertion order, and a three-way collision clique
whose member is deleted again, restoring exactly the two-item state. -/

/-- Digest for the permutation check: the single points of items 1 and 2
collide at value 1; their generation-1 values are 2 and 3. -/
def hashPerm : HashFn := {
  base := fun x => x
  suf := fun x g i =>
    if x = 1 ∧ g = 0 ∧ i = 0 then 1
    else if x = 2 ∧ g = 0 ∧ i = 0 then 1
    else if x = 1 ∧ g = 1 ∧ i = 0 then 2
    else if x = 2 ∧ g = 1 ∧ i = 0 then 3
    else 1000 + 100 * x + 10 * g + i }

unseal Rat.mul Rat.add Rat.sub Rat.inv in
/-- Two permutations of a two-item collision produce identical rings and
collision sets (the mirror of the repository's `perm` test cases). -/
theorem model_validation_perm :
    (runOps hashPerm 1 20 [.ins 1 1, .ins 2 1] emptyState).map ringView
      = some [(2, 1, 0, 1), (3, 2, 0, 1)] ∧
    (runOps hashPerm 1 20 [.ins 2 1, .ins 1 1] emptyState).map ringView
      = some [(2, 1, 0, 1), (3, 2, 0, 1)] ∧
    (runOps hashPerm 1 20 [.ins 1 1, .ins 2 1] emptyState).map (fun s => s.collisions)
      = some [(1, [(1, 0), (2, 0)])] ∧
    (runOps hashPerm 1 20 [.ins 2 1, .ins 1 1] emptyState).map (fun s => s.collisions)
      = some [(1, [(1, 0), (2, 0)])] :=
  ⟨by decide, by decide, by decide, by decide⟩

/-- Digest for the delete-rewind check: the single points of items 1, 2
and 3 all collide at value 7; generation-1 values are 11, 12, 13. -/
def hashChain : HashFn := {
  base := fun x => x
  suf := fun x g i =>
    if g = 0 ∧ i = 0 ∧ (x = 1 ∨ x = 2 ∨ x = 3) then 7
    else if g = 1 ∧ i = 0 ∧ x = 1 then 11
    else if g = 1 ∧ i = 0 ∧ x = 2 then 12
    else if g = 1 ∧ i = 0 ∧ x = 3 then 13
    else 1000 + 100 * x + 10 * g + i }

unseal Rat.mul Rat.add Rat.sub Rat.inv in
/-- Deleting one member of a three-way collision clique restores exactly
the ring built from the two remaining items (the mirror of the
repository's "ring had three items and then one removed" test). -/
theorem model_validation_delete_rewind :
    (runOps hashChain 1 20 [.ins 1 1, .ins 3 1, .ins 2 1, .del 3] emptyState).map ringView
      = some [(11, 1, 0, 1), (12, 2, 0, 1)] ∧
    (runOps hashChain 1 20 [.ins 1 1, .ins 2 1] emptyState).map ringView
      = some [(11, 1, 0, 1), (12, 2, 0, 1)] ∧
    (runOps hashChain 1 20 [.ins 1 1, .ins 3 1, .ins 2 1, .del 3] emptyState).map
        (fun s => s.collisions)
      = some [(7, [(1, 0), (2, 0)])] ∧
    (runOps hashChain 1 20 [.ins 1 1, .ins 2 1] emptyState).map (fun s => s.collisions)
      = some [(7, [(1, 0), (2, 0)])] :=
  ⟨by decide, by decide, by decide, by decide⟩

/-!
## Claim C1 — order independence

The digest below realizes the following schedule (magic factor 2):

* item 1, weight 1, point values `suf 1 0 0 = 5`, `suf 1 0 1 = 42`;
* item 2, weight 2, point values `suf 2 0 0 = 10`, `suf 2 0 1 = 42`.

History A is `Insert(1,1); Insert(2,2); Delete(2)`, history B is
`Insert(1,1)`.  Both end with the same interface state (item 1 alone,
weight 1), yet the rings differ: during the `Delete(2)` rebuild, bucket 1
(processed first, ids ascending) grows its point `(1,1)` at value 42,
evicting the live point `(2,1)` into the fix queue; bucket 2's shrink
then finds `(2,1)` absent from the tree and no-ops, so the fix-queue
drain re-inserts `(2,1)` at generation 1 — a point of the now-deleted
bucket 2 that survives in the published ring (`Get` can return the
deleted item), while `(1,1)` ends at generation 1 instead of its natural
value. -/
def hashC1 : HashFn := {
  base := fun x => x
  suf := fun x g i =>
    if x = 1 ∧ g = 0 ∧ i = 0 then 5
    else if x = 1 ∧ g = 0 ∧ i = 1 then 42
    else if x = 2 ∧ g = 0 ∧ i = 0 then 10
    else if x = 2 ∧ g = 0 ∧ i = 1 then 42
    else if x = 2 ∧ g = 1 ∧ i = 1 then 77
    else if x = 1 ∧ g = 1 ∧ i = 1 then 88
    else 1000 + 100 * x + 10 * g + i }

unseal Rat.mul Rat.add Rat.sub Rat.inv in
/-- C1.  Order independence fails on the code: the two operation
sequences `[Insert(1,1), Insert(2,2), Delete(2)]` and `[Insert(1,1)]`
produce the same end state (the mapping `item 1 ↦ weight 1`) under the
same fixed hash function, but the resulting ring trees differ — the
first history keeps a generation-1 point `(bucket 2, index 1)` of the
deleted bucket at value 77 and moves `(1,1)` to value 88, while the
second holds `(1,1)` at its natural value 42 with generation 0. -/
theorem claim1_order_dependence :
    (runOps hashC1 2 20 [.ins 1 1, .ins 2 2, .del 2] emptyState).map weightsView =
      some [(1, 1, 1)] ∧
    (runOps hashC1 2 20 [.ins 1 1] emptyState).map weightsView =
      some [(1, 1, 1)] ∧
    (runOps hashC1 2 20 [.ins 1 1, .ins 2 2, .del 2] emptyState).map ringView =
      some [(5, 1, 0, 0), (77, 2, 1, 1), (88, 1, 1, 1)] ∧
    (runOps hashC1 2 20 [.ins 1 1] emptyState).map ringView =
      some [(5, 1, 0, 0), (42, 1, 1, 0)] ∧
    (runOps hashC1 2 20 [.ins 1 1, .ins 2 2, .del 2] emptyState).map
        (fun s => getOp hashC1 s 70) = some (some 2) := by
  refine ⟨by decide, by decide, by decide, by decide, by decide⟩

/-!
## Claim C2 — uniqueness / placement invariant

The claim's partition, read as set membership ("each point of every
bucket is in exactly one of the ring tree or the collisions map together
with the fix queue, never both"), fails: after a collision is resolved,
a point is live in the ring at its generation-1 value *and* remains a
member of the collision set recorded at its generation-0 value. -/

/-- The partition property asserted by the claim, as a decidable check:
every point `(b, i)` of every bucket is in exactly one of the ring tree
or the union of the collisions map and the fix queue. -/
def exclusivePlacement (s : RState) : Bool :=
  s.buckets.all fun b =>
    (List.range b.npoints).all fun i =>
      let p : PointId := (b.id, i)
      let inRing := s.ring.any fun e => decide (e.2 = p)
      let inCollOrFix :=
        (s.collisions.any fun e => e.2.any fun q => decide (q = p)) ||
          s.fix.any fun q => decide (q = p)
      inRing != inCollOrFix

/-- Digest for the counterexample: the single points of items 1 and 2
collide at value 7 (magic factor 1); their generation-1 values are 11
and 12. -/
def hashC2 : HashFn := {
  base := fun x => x
  suf := fun x g i =>
    if x = 1 ∧ g = 0 ∧ i = 0 then 7
    else if x = 2 ∧ g = 0 ∧ i = 0 then 7
    else if x = 1 ∧ g = 1 ∧ i = 0 then 11
    else if x = 2 ∧ g = 1 ∧ i = 0 then 12
    else 1000 + 100 * x + 10 * g + i }

unseal Rat.mul Rat.add Rat.sub Rat.inv in
/-- C2, counterexample.  After `Insert(1,1); Insert(2,1)` (a resolved
collision at value 7), the fix queue is empty but point `(1,0)` is both
live in the ring tree (at value 11) and a member of `collisions[7]` —
the "exactly one, never both" partition is false in a reachable
between-operations state. -/
theorem claim2_counterexample :
    (runOps hashC2 1 20 [.ins 1 1, .ins 2 1] emptyState).map
        (fun s =>
          (exclusivePlacement s, s.fix,
            s.ring.any fun e => decide (e.2 = ((1, 0) : PointId)),
            s.collisions.any fun e => e.2.any fun q => decide (q = ((1, 0) : PointId))))
      = some (false, [], true, true) := by decide

/-- C2, amended.  At the completion of every public operation sequence:
the ring tree's values are pairwise distinct (no two points share a
value), the fix queue is empty, and hence no point is simultaneously in
the ring tree and the fix queue.  (The collisions map may retain a
ring-resident point at a historical value, which is what refutes the
original "never both" reading.) -/
theorem claim2_uniqueness_amended (H : HashFn) (magic fuel : Nat)
    (ops : List Op) (s : RState)
    (h : runOps H magic fuel ops emptyState = some s) :
    s.ring.Pairwise (fun a b => a.1 ≠ b.1) ∧ s.fix = [] ∧
      ∀ p ∈ s.fix, ¬ ∃ e ∈ s.ring, e.2 = p := by
  obtain ⟨hs, hf⟩ := runOps_winv ops emptyState winv_empty h
  refine ⟨hs.imp ?_, hf, ?_⟩
  · intro a b hlt
    exact ne_of_lt hlt
  · intro p hp
    rw [hf] at hp
    cases hp

unseal Rat.mul Rat.add Rat.sub Rat.inv in
/-- Witness for `claim2_uniqueness_amended` at a concrete run. -/
theorem claim2_uniqueness_amended_witness :
    runOps ⟨fun x => x, fun x g i => 100 * x + 10 * g + i⟩ 1 10 [.ins 1 1] emptyState
        = some ⟨[⟨1, 1, 1, 1⟩], [((1, 0), ⟨1, 100, []⟩)], [(100, (1, 0))], [], [], 1, 1⟩ ∧
      (([(100, ((1, 0) : PointId))] : Tree).Pairwise (fun a b => a.1 ≠ b.1) ∧
        ([] : List PointId) = [] ∧
        ∀ p ∈ ([] : List PointId),
          ¬ ∃ e ∈ ([(100, ((1, 0) : PointId))] : Tree), e.2 = p) :=
  ⟨by decide,
    claim2_uniqueness_amended ⟨fun x => x, fun x g i => 100 * x + 10 * g + i⟩ 1 10
      [.ins 1 1] ⟨[⟨1, 1, 1, 1⟩], [((1, 0), ⟨1, 100, []⟩)], [(100, (1, 0))], [], [], 1, 1⟩
      (by decide)⟩

/-!
## Claim C3 — the `maxWeight = 0` path of the interpolation -/

/-- The ceiling of the magic factor is the magic factor itself (it is
integral by construction). -/
theorem magicFactor_ceil (magic : Nat) :
    ((Int.ceil (magicFactor magic) : ℤ) : ℚ) = magicFactor magic := by
  unfold magicFactor
  split
  · rw [Int.ceil_natCast]
    norm_cast
  · norm_num

/-- `numPoints` never reaches the "malformed points" panic of `line`:
when the two anchors share the x-coordinate (`minWeight = maxWeight`)
they also share the y-coordinate, because `minW/maxW = 1` and the
ceiling of the integral magic factor is itself. -/
theorem numPoints_ok (magic : Nat) (minW maxW : ℚ) :
    ∃ f, numPoints magic minW maxW = .ok f := by
  unfold numPoints
  split
  · exact ⟨_, rfl⟩
  next hmax =>
    unfold line
    split
    next hcond =>
      exfalso
      obtain ⟨heq, hne⟩ := hcond
      apply hne
      rw [← heq, div_self hmax, mul_one, magicFactor_ceil]
    next =>
      split
      · exact ⟨_, rfl⟩
      · exact ⟨_, rfl⟩

/-- Digest for the delete-the-last-item scenario (no collisions). -/
def hashC3 : HashFn := ⟨fun x => x, fun x g i => 1000 + 100 * x + 10 * g + i⟩

unseal Rat.mul Rat.add Rat.sub Rat.inv in
/-- C3.  When the maximum live weight is 0 the counting function is the
constant 0 for every bucket; the interpolation's "malformed points"
panic branch is unreachable from `numPoints` for *all* inputs; and a
`Delete` of the last remaining item completes without panic, leaving an
empty ring tree (and empty buckets, collisions and fix queue, with both
weight bounds reset to 0). -/
theorem claim3_delete_last :
    (∀ (magic : Nat) (minW : ℚ), numPoints magic minW 0 = .ok (fun _ => 0)) ∧
    (∀ (magic : Nat) (minW maxW : ℚ) (e : EngineFail),
        numPoints magic minW maxW ≠ .error e) ∧
    (runOps hashC3 1 20 [.ins 1 1, .del 1] emptyState).map
        (fun s => decide (s.ring = []) && decide (s.buckets = []) &&
          decide (s.collisions = []) && decide (s.fix = []) &&
          decide (s.minW = 0) && decide (s.maxW = 0))
      = some true := by
  refine ⟨?_, ?_, by decide⟩
  · intro magic minW
    unfold numPoints
    simp
  · intro magic minW maxW e h
    obtain ⟨f, hf⟩ := numPoints_ok magic minW maxW
    rw [hf] at h
    exact absurd h (by simp)

/-- Witness for `claim3_delete_last` at concrete weight bounds. -/
theorem claim3_delete_last_witness :
    numPoints 3 2 0 = .ok (fun _ => 0) ∧
    ¬ numPoints 3 2 5 = .error (.internal "hashring: internal error: malformed points") :=
  ⟨claim3_delete_last.1 3 2,
    claim3_delete_last.2.1 3 2 5 (.internal "hashring: internal error: malformed points")⟩

/-!
## Claim C4 — the weight-to-points interpolation formula

The spec's formula anchors the line at `(m, ⌈F·m/M⌉)`.  The current
`numPoints` instead computes `Ceil(magicFactor()) * (minWeight/maxWeight)`
— the ceiling applies to the (already integral) magic factor alone, so
the second anchor is the un-rounded `F·m/M`, and the whole interpolation
degenerates to `F·w/M`.  The older revision of `ring.go` in this
repository (`rebuild`, which passes `math.Ceil(float64(magicFactor()) *
(minWeight/maxWeight))` to `line`) matches the spec, so the misplaced
ceiling is a regression.  At `F = 1020`, `m = 1`, `M = 999` the bucket of
weight 1 receives 1 point from the code but 2 from the claimed formula. -/

/-- Go's `int(n + 0.5)` half-up rounding of a non-negative quantity. -/
def halfUp (q : ℚ) : ℤ := Int.floor (q + 1 / 2)

/-- Modelled from the spec: "if M == m, every bucket gets F points.
Otherwise compute slope s = (y1 − y0)/(x1 − x0) with (x0,y0)=(M,F) and
(x1,y1)=(m,⌈F·m/M⌉), and for a bucket of weight w return
round(s·(w − M) + F) (half-up)." -/
def numPointsClaim (magic : Nat) (m M w : ℚ) : ℤ :=
  let F := magicFactor magic
  if M = m then Int.floor F
  else
    let y1 : ℚ := (Int.ceil (F * m / M) : ℚ)
    halfUp ((y1 - F) / (m - M) * (w - M) + F)

unseal Rat.mul Rat.add Rat.sub Rat.inv in
/-- C4.  With the default magic factor 1020, minimum live weight 1 and
maximum live weight 999, the code's `numPoints` gives the weight-1
bucket 1 point while the claim's formula (the spec's and the older
revision's `⌈F·m/M⌉` anchor) gives it 2; on the maximum-weight bucket
both agree at 1020. -/
theorem claim4_interpolation_divergence :
    (numPoints 0 1 999).toOption.map (fun f => f 1) = some 1 ∧
    numPointsClaim 0 1 999 1 = 2 ∧
    (numPoints 0 1 999).toOption.map (fun f => f 999) = some 1020 ∧
    numPointsClaim 0 1 999 999 = 1020 := by
  refine ⟨by decide, by decide, by decide, by decide⟩

/-!
## Claim C5 — the `insertPoint` state machine -/

/-- Sorted insertion into a collision set succeeds for a fresh member and
extends the set by exactly that member. -/
theorem setInsert_mem (p : PointId) :
    ∀ c : List PointId, p ∉ c →
      ∃ c2, setInsert c p = .ok c2 ∧ p ∈ c2 ∧ ∀ q, q ∈ c2 ↔ q ∈ c ∨ q = p := by
  intro c
  induction c with
  | nil =>
    intro _
    exact ⟨[p], rfl, by simp, by simp⟩
  | cons a rest ih =>
    intro hnp
    have hpa : ¬ p = a := by
      intro he
      exact hnp (by simp [he])
    by_cases hlt : pidLtB p a = true
    · refine ⟨p :: a :: rest, ?_, by simp, ?_⟩
      · unfold setInsert
        rw [if_neg hpa, if_pos hlt]
      · intro q
        constructor
        · intro hq
          rcases List.mem_cons.mp hq with hq | hq
          · exact Or.inr hq
          · exact Or.inl hq
        · intro hq
          rcases hq with hq | hq
          · exact List.mem_cons.mpr (Or.inr hq)
          · exact List.mem_cons.mpr (Or.inl hq)
    · obtain ⟨c2, hc2, hpc2, hiff⟩ := ih (fun hm => hnp (List.mem_cons.mpr (Or.inr hm)))
      refine ⟨a :: c2, ?_, List.mem_cons.mpr (Or.inr hpc2), ?_⟩
      · unfold setInsert
        rw [if_neg hpa, if_neg hlt, hc2]
        rfl
      · intro q
        constructor
        · intro hq
          rcases List.mem_cons.mp hq with hq | hq
          · exact Or.inl (List.mem_cons.mpr (Or.inl hq))
          · rcases (hiff q).mp hq with h | h
            · exact Or.inl (List.mem_cons.mpr (Or.inr h))
            · exact Or.inr h
        · intro hq
          rcases hq with hq | hq
          · rcases List.mem_cons.mp hq with hq | hq
            · exact List.mem_cons.mpr (Or.inl hq)
            · exact List.mem_cons.mpr (Or.inr ((hiff q).mpr (Or.inl hq)))
          · exact List.mem_cons.mpr (Or.inr ((hiff q).mpr (Or.inr hq)))

/-- When `treeInsert` finds the value free, the new pair is in the
result. -/
theorem treeInsert_none_mem (v : Val) (p : PointId) :
    ∀ t t2 : Tree, treeInsert t v p = (t2, none) → (v, p) ∈ t2 := by
  intro t
  induction t with
  | nil =>
    intro t2 h
    cases h
    simp
  | cons hd tl ih =>
    intro t2 h
    unfold treeInsert at h
    split at h
    · cases h; simp
    · split at h
      · cases h
      · simp only [] at h
        have h1 : (hd.1, hd.2) :: (treeInsert tl v p).1 = t2 := congrArg Prod.fst h
        have h2 : (treeInsert tl v p).2 = none := congrArg Prod.snd h
        have hmem := ih (treeInsert tl v p).1 (by rw [← h2])
        rw [← h1]
        exact List.mem_cons.mpr (Or.inr hmem)

/-- Deleting an absent value is the identity. -/
theorem treeDelete_not_mem (v : Val) :
    ∀ t : Tree, (∀ e ∈ t, ¬ e.1 = v) → treeDelete t v = (t, none) := by
  intro t
  induction t with
  | nil => intro _; rfl
  | cons hd tl ih =>
    intro hall
    have hne : ¬ v = hd.1 := fun he => hall hd (List.mem_cons_self hd tl) he.symm
    have hrec := ih (fun e he => hall e (List.mem_cons.mpr (Or.inr he)))
    obtain ⟨w, q⟩ := hd
    unfold treeDelete
    simp only at hne
    rw [if_neg hne, hrec]

/-- On a sorted tree, `treeInsert` reports the same occupant that
`treeDelete` removes. -/
theorem treeInsert_delete_snd (v : Val) (p : PointId) :
    ∀ t : Tree, TSorted t → (treeInsert t v p).2 = (treeDelete t v).2 := by
  intro t
  induction t with
  | nil => intro _; rfl
  | cons hd tl ih =>
    intro hs
    obtain ⟨hhd, htl⟩ := List.pairwise_cons.mp hs
    obtain ⟨w, q⟩ := hd
    by_cases hlt : v < w
    · have hne : ¬ v = w := ne_of_lt hlt
      have hall : ∀ e ∈ tl, ¬ e.1 = v := by
        intro e he h1
        have := hhd e he
        simp only at this
        rw [h1] at this
        exact absurd (lt_trans hlt this) (lt_irrefl v)
      unfold treeInsert treeDelete
      simp only
      rw [if_pos hlt, if_neg hne, treeDelete_not_mem v tl hall]
    · by_cases heq : v = w
      · unfold treeInsert treeDelete
        simp only
        rw [if_neg hlt, if_pos heq, if_pos heq]
      · unfold treeInsert treeDelete
        simp only
        rw [if_neg hlt, if_neg heq, if_neg heq]
        exact ih htl

/-- On a sorted tree, the survivors of `treeDelete` are input elements
that do not carry the deleted value. -/
theorem treeDelete_mem_ne (v : Val) :
    ∀ t : Tree, TSorted t → ∀ e ∈ (treeDelete t v).1, e ∈ t ∧ ¬ e.1 = v := by
  intro t
  induction t with
  | nil =>
    intro _ e he
    simp [treeDelete] at he
  | cons hd tl ih =>
    intro hs e he
    obtain ⟨hhd, htl⟩ := List.pairwise_cons.mp hs
    obtain ⟨w, q⟩ := hd
    by_cases heq : v = w
    · have hres : (treeDelete ((w, q) :: tl) v).1 = tl := by
        simp [treeDelete, heq]
      rw [hres] at he
      refine ⟨List.mem_cons.mpr (Or.inr he), ?_⟩
      intro h1
      have := hhd e he
      simp only at this
      rw [h1, ← heq] at this
      exact absurd this (lt_irrefl v)
    · have hres : (treeDelete ((w, q) :: tl) v).1 = (w, q) :: (treeDelete tl v).1 := by
        simp [treeDelete, heq]
      rw [hres] at he
      rcases List.mem_cons.mp he with he | he
      · refine ⟨List.mem_cons.mpr (Or.inl he), ?_⟩
        rw [he]
        exact fun h1 => heq h1.symm
      · obtain ⟨hmem, hne⟩ := ih htl e he
        exact ⟨List.mem_cons.mpr (Or.inr hmem), hne⟩

/-- C5.  The three cases of the `insertPoint` state machine.
(1) A non-empty collision set at the point's current value: the point
joins the set, is queued for fixing, and the tree is returned unchanged.
(2) A free value: the point is inserted into the tree.
(3) An occupied value: the occupant `d` is removed, the collision set at
the value is created containing exactly `d` and `p`, both enter the fix
queue in the order `d, p`, and neither is live in the returned tree.
The side conditions (`p` not already in the collision set, `d ≠ p`, `d`
live only at that value, `p` not live) hold in every reachable state;
without them the Go code would panic in `mustInsertTree`. -/
theorem claim5_insertPoint_state_machine (s : RState) (tree : Tree) (p : PointId) :
    (∀ c, collGet s.collisions (getP s.pts p).val = c → c ≠ [] → p ∉ c →
      ∃ c2, setInsert c p = .ok c2 ∧ p ∈ c2 ∧ (∀ q ∈ c, q ∈ c2) ∧
        insertPoint s tree p =
          .ok ({ s with collisions := collSet s.collisions (getP s.pts p).val c2,
                        fix := s.fix ++ [p] }, tree, false)) ∧
    (collGet s.collisions (getP s.pts p).val = [] →
      ∀ t2, treeInsert tree (getP s.pts p).val p = (t2, none) →
        insertPoint s tree p = .ok (s, t2, true) ∧ ((getP s.pts p).val, p) ∈ t2) ∧
    (collGet s.collisions (getP s.pts p).val = [] → TSorted tree →
      ∀ d, (treeInsert tree (getP s.pts p).val p).2 = some d → ¬ d = p →
        (∀ e ∈ tree, e.2 = d → e.1 = (getP s.pts p).val) →
        (∀ e ∈ tree, ¬ e.2 = p) →
        ∃ c2, setInsert [p] d = .ok c2 ∧ p ∈ c2 ∧ d ∈ c2 ∧
          insertPoint s tree p =
            .ok ({ s with collisions := collSet s.collisions (getP s.pts p).val c2,
                          fix := s.fix ++ [d, p] },
              (treeDelete tree (getP s.pts p).val).1, false) ∧
          ∀ e ∈ (treeDelete tree (getP s.pts p).val).1, ¬ e.2 = d ∧ ¬ e.2 = p) := by
  refine ⟨?_, ?_, ?_⟩
  · intro c hc hne hnp
    obtain ⟨c2, hc2, hpc2, hiff⟩ := setInsert_mem p c hnp
    refine ⟨c2, hc2, hpc2, fun q hq => (hiff q).mpr (Or.inl hq), ?_⟩
    unfold insertPoint
    simp only []
    rw [hc, if_pos hne, hc2]
  · intro hc t2 ht
    constructor
    · unfold insertPoint
      simp only []
      rw [hc, if_neg (by simp), ht]
    · exact treeInsert_none_mem _ p tree t2 ht
  · intro hc hsorted d hd hdp hdval hpval
    have hnp : d ∉ [p] := by
      intro hm
      rcases List.mem_singleton.mp hm with h
      exact hdp h
    obtain ⟨c2, hc2, hdc2, hiff⟩ := setInsert_mem d [p] hnp
    have hpc2 : p ∈ c2 := (hiff p).mpr (Or.inl (List.mem_singleton.mpr rfl))
    have hdel2 : (treeDelete tree (getP s.pts p).val).2 = some d := by
      rw [← treeInsert_delete_snd _ p tree hsorted, hd]
    have hdel : treeDelete tree (getP s.pts p).val =
        ((treeDelete tree (getP s.pts p).val).1, some d) := by
      rw [← hdel2]
    have hti : treeInsert tree (getP s.pts p).val p =
        ((treeInsert tree (getP s.pts p).val p).1, some d) := by
      rw [← hd]
    refine ⟨c2, hc2, hpc2, hdc2, ?_, ?_⟩
    · unfold insertPoint
      simp only []
      rw [hc, if_neg (by simp), hti, hdel]
      rw [show setInsert ([] : List PointId) p = Except.ok [p] from rfl]
      simp only []
      rw [hc2]
    · intro e he
      obtain ⟨hmem, hne⟩ := treeDelete_mem_ne _ tree hsorted e he
      constructor
      · intro h1
        exact hne (hdval e hmem h1)
      · exact hpval e hmem

unseal Rat.mul Rat.add Rat.sub Rat.inv in
/-- Witness for `claim5_insertPoint_state_machine`: each of the three
cases applied at a concrete state. -/
theorem claim5_insertPoint_state_machine_witness :
    (∃ c2, setInsert [((2, 0) : PointId)] (1, 0) = .ok c2 ∧ ((1, 0) : PointId) ∈ c2 ∧
      (∀ q ∈ [((2, 0) : PointId)], q ∈ c2) ∧
      insertPoint ⟨[], [((1, 0), ⟨1, 7, []⟩)], [], [(7, [(2, 0)])], [], 0, 0⟩ [] (1, 0) =
        .ok (⟨[], [((1, 0), ⟨1, 7, []⟩)], [],
          collSet [(7, [(2, 0)])] 7 c2, [] ++ [(1, 0)], 0, 0⟩, [], false)) ∧
    (insertPoint ⟨[], [((1, 0), ⟨1, 5, []⟩)], [], [], [], 0, 0⟩ [] (1, 0) =
        .ok (⟨[], [((1, 0), ⟨1, 5, []⟩)], [], [], [], 0, 0⟩, [(5, (1, 0))], true) ∧
      ((5 : Val), ((1, 0) : PointId)) ∈ [((5 : Val), ((1, 0) : PointId))]) ∧
    (∃ c2, setInsert [((1, 0) : PointId)] (2, 0) = .ok c2 ∧ ((1, 0) : PointId) ∈ c2 ∧
      ((2, 0) : PointId) ∈ c2 ∧
      insertPoint ⟨[], [((1, 0), ⟨1, 5, []⟩)], [], [], [], 0, 0⟩ [(5, (2, 0))] (1, 0) =
        .ok (⟨[], [((1, 0), ⟨1, 5, []⟩)], [],
          collSet [] 5 c2, [] ++ [(2, 0), (1, 0)], 0, 0⟩,
          (treeDelete [(5, (2, 0))] 5).1, false) ∧
      ∀ e ∈ (treeDelete [((5 : Val), ((2, 0) : PointId))] 5).1,
        ¬ e.2 = ((2, 0) : PointId) ∧ ¬ e.2 = ((1, 0) : PointId)) := by
  refine ⟨?_, ?_, ?_⟩
  · exact (claim5_insertPoint_state_machine
      ⟨[], [((1, 0), ⟨1, 7, []⟩)], [], [(7, [(2, 0)])], [], 0, 0⟩ [] (1, 0)).1
      [(2, 0)] (by decide) (by decide) (by decide)
  · exact (claim5_insertPoint_state_machine
      ⟨[], [((1, 0), ⟨1, 5, []⟩)], [], [], [], 0, 0⟩ [] (1, 0)).2.1
      (by decide) [(5, (1, 0))] (by decide)
  · exact (claim5_insertPoint_state_machine
      ⟨[], [((1, 0), ⟨1, 5, []⟩)], [], [], [], 0, 0⟩ [(5, (2, 0))] (1, 0)).2.2
      (by decide) (List.pairwise_singleton _ _) (2, 0) (by decide) (by decide)
      (by decide) (by decide)

/-!
## Claim C6 — fix-queue draining -/

/-- Reading back a freshly written point object. -/
theorem getP_setP (p : PointId) (d : PData) :
    ∀ pts : List (PointId × PData), getP (setP pts p d) p = d := by
  intro pts
  unfold setP
  split
  next hany =>
    revert hany
    induction pts with
    | nil => intro hany; simp at hany
    | cons e rest ih =>
      intro hany
      by_cases hep : e.1 = p
      · simp [getP, hep]
      · have hrest : rest.any (fun e => decide (e.1 = p)) = true := by
          simp only [List.any_cons, Bool.or_eq_true, decide_eq_true_eq] at hany
          rcases hany with h | h
          · exact absurd h hep
          · simpa using h
        have hih := ih hrest
        unfold getP at hih ⊢
        rw [List.map_cons, if_neg hep,
          List.find?_cons_of_neg _ (by simpa using hep)]
        exact hih
  · simp [getP]

/-- The drain loop returns only with an empty fix queue. -/
theorem drain_fix_nil {H : HashFn} :
    ∀ (fuel : Nat) (s : RState) (tree : Tree) {s' : RState} {tree' : Tree},
      drain H fuel s tree = .ok (s', tree') → s'.fix = [] := by
  intro fuel
  induction fuel with
  | zero =>
    intro s tree s' tree' h
    unfold drain at h
    split at h
    next hfix => cases h; exact hfix
    · exact absurd h (by simp)
  | succ n ih =>
    intro s tree s' tree' h
    unfold drain at h
    split at h
    next hfix => cases h; exact hfix
    · simp only [] at h
      split at h
      · exact absurd h (by simp)
      · exact ih _ _ h

/-- The rebuild loop returns only with an empty fix queue. -/
theorem rebuildLoop_fix_nil {H : HashFn} {numF : ℚ → ℤ} :
    ∀ (fuel : Nat) (s : RState) (tree : Tree) {s' : RState} {tree' : Tree},
      rebuildLoop H numF fuel s tree = .ok (s', tree') → s'.fix = [] := by
  intro fuel
  induction fuel with
  | zero =>
    intro s tree s' tree' h
    exact absurd h (by simp [rebuildLoop])
  | succ n ih =>
    intro s tree s' tree' h
    unfold rebuildLoop at h
    split at h
    · exact absurd h (by simp)
    · split at h
      · exact absurd h (by simp)
      next s2 tree2 heq2 =>
        split at h
        next hfe => cases h; exact hfe
        · exact ih _ _ h

/-- C6.  One drain step pops the front point `p`, digests `p`'s item
with the suffix `(generation + 1, index)`, pushes the old value via
`proceed` (the generation grows by exactly one and the old value tops
the stack), re-inserts through `insertPoint` and recurses; and both the
drain loop and the whole rebuild loop terminate only with an empty fix
queue. -/
theorem claim6_fix_queue_drain (H : HashFn) (fuel : Nat) (s : RState)
    (tree : Tree) (p : PointId) (rest : List PointId)
    (hfix : s.fix = p :: rest) :
    ((getP (setP s.pts p
        ⟨(getP s.pts p).item,
          H.suf (getP s.pts p).item ((getP s.pts p).stack.length + 1) p.2,
          (getP s.pts p).val :: (getP s.pts p).stack⟩) p).stack.length
        = (getP s.pts p).stack.length + 1) ∧
    ((getP (setP s.pts p
        ⟨(getP s.pts p).item,
          H.suf (getP s.pts p).item ((getP s.pts p).stack.length + 1) p.2,
          (getP s.pts p).val :: (getP s.pts p).stack⟩) p).val
        = H.suf (getP s.pts p).item ((getP s.pts p).stack.length + 1) p.2) ∧
    ((getP (setP s.pts p
        ⟨(getP s.pts p).item,
          H.suf (getP s.pts p).item ((getP s.pts p).stack.length + 1) p.2,
          (getP s.pts p).val :: (getP s.pts p).stack⟩) p).stack.head?
        = some (getP s.pts p).val) ∧
    (drain H (fuel + 1) s tree =
      match insertPoint
          { s with fix := rest,
                   pts := setP s.pts p
                     ⟨(getP s.pts p).item,
                       H.suf (getP s.pts p).item ((getP s.pts p).stack.length + 1) p.2,
                       (getP s.pts p).val :: (getP s.pts p).stack⟩ } tree p with
      | .error e => .error e
      | .ok (s3, tree1, _) => drain H fuel s3 tree1) ∧
    (∀ s' tree', drain H fuel s tree = .ok (s', tree') → s'.fix = []) ∧
    (∀ (numF : ℚ → ℤ) (s' : RState) (tree' : Tree),
        rebuildLoop H numF fuel s tree = .ok (s', tree') → s'.fix = []) := by
  refine ⟨?_, ?_, ?_, ?_, ?_, ?_⟩
  · rw [getP_setP]
    simp
  · rw [getP_setP]
  · rw [getP_setP]
    rfl
  · conv_lhs => unfold drain
    rw [hfix]
  · intro s' tree' h
    exact drain_fix_nil fuel s tree h
  · intro numF s' tree' h
    exact rebuildLoop_fix_nil fuel s tree h

unseal Rat.mul Rat.add Rat.sub Rat.inv in
/-- Witness for `claim6_fix_queue_drain` at a concrete one-element fix
queue. -/
theorem claim6_fix_queue_drain_witness :
    (runOps ⟨fun x => x, fun x g i => 50 * x + 10 * g + i⟩ 1 10 [.ins 1 1]
        ⟨[], [((9, 9), ⟨9, 3, [2]⟩)], [], [], [(9, 9)], 0, 0⟩).isSome = true ∧
    ((getP (setP [((9, 9), ⟨9, 3, [2]⟩)] (9, 9)
        ⟨(getP [((9, 9), ⟨9, 3, [2]⟩)] (9, 9)).item,
          HashFn.suf ⟨fun x => x, fun x g i => 50 * x + 10 * g + i⟩
            (getP [((9, 9), ⟨9, 3, [2]⟩)] (9, 9)).item
            ((getP [((9, 9), ⟨9, 3, [2]⟩)] (9, 9)).stack.length + 1) 9,
          (getP [((9, 9), ⟨9, 3, [2]⟩)] (9, 9)).val
            :: (getP [((9, 9), ⟨9, 3, [2]⟩)] (9, 9)).stack⟩) (9, 9)).stack.length
      = (getP [((9, 9), ⟨9, 3, [2]⟩)] (9, 9)).stack.length + 1) := by
  constructor
  · decide
  · exact (claim6_fix_queue_drain ⟨fun x => x, fun x g i => 50 * x + 10 * g + i⟩ 4
      ⟨[], [((9, 9), ⟨9, 3, [2]⟩)], [], [], [(9, 9)], 0, 0⟩ [] (9, 9) []
      (by decide)).1

/-!
## Claim C7 — `Get` semantics -/

/-- The successor returned on a sorted tree is the least element strictly
greater than the probe. -/
theorem treeSuccessor_min (d : Val) :
    ∀ t : Tree, TSorted t → ∀ e, treeSuccessor t d = some e →
      d < e.1 ∧ ∀ f ∈ t, d < f.1 → e.1 ≤ f.1 := by
  intro t
  induction t with
  | nil =>
    intro _ e h
    simp [treeSuccessor] at h
  | cons hd tl ih =>
    intro hs e h
    obtain ⟨hhd, htl⟩ := List.pairwise_cons.mp hs
    by_cases hlt : d < hd.1
    · have hres : treeSuccessor (hd :: tl) d = some hd := by
        unfold treeSuccessor
        exact List.find?_cons_of_pos _ (by simpa using hlt)
      rw [hres] at h
      cases h
      refine ⟨hlt, ?_⟩
      intro f hf _
      rcases List.mem_cons.mp hf with hf | hf
      · rw [hf]
      · exact le_of_lt (hhd f hf)
    · have hres : treeSuccessor (hd :: tl) d = treeSuccessor tl d := by
        unfold treeSuccessor
        exact List.find?_cons_of_neg _ (by simpa using hlt)
      rw [hres] at h
      obtain ⟨h1, h2⟩ := ih htl e h
      refine ⟨h1, ?_⟩
      intro f hf hdf
      rcases List.mem_cons.mp hf with hf | hf
      · exact absurd (hf ▸ hdf) hlt
      · exact h2 f hf hdf

/-- The successor exists whenever some element is strictly greater. -/
theorem treeSuccessor_isSome {t : Tree} {d : Val} {e' : Val × PointId}
    (he' : e' ∈ t) (hd : d < e'.1) : ∃ e, treeSuccessor t d = some e := by
  cases hfind : treeSuccessor t d with
  | some e => exact ⟨e, rfl⟩
  | none =>
    exfalso
    have := List.find?_eq_none.mp hfind e' he'
    simp only [decide_eq_true_eq] at this
    exact this hd

/-- C7.  `Get` returns `none` iff the ring tree is empty; when some
point's value strictly exceeds the key digest, `Get` returns the item of
the least such point (the successor); otherwise it wraps to the minimum
point.  (Sortedness of the ring holds in every reachable state by
`runOps_winv`.) -/
theorem claim7_get_semantics (H : HashFn) (s : RState) (x : Nat)
    (hs : TSorted s.ring) :
    (getOp H s x = none ↔ s.ring = []) ∧
    (∀ e' ∈ s.ring, H.base x < e'.1 →
      ∃ e, getPoint s.ring (H.base x) = some e ∧ e ∈ s.ring ∧ H.base x < e.1 ∧
        (∀ f ∈ s.ring, H.base x < f.1 → e.1 ≤ f.1) ∧
        getOp H s x = some (getP s.pts e.2).item) ∧
    ((∀ f ∈ s.ring, f.1 ≤ H.base x) → ¬ s.ring = [] →
      ∃ e, getPoint s.ring (H.base x) = some e ∧ e ∈ s.ring ∧
        (∀ f ∈ s.ring, e.1 ≤ f.1) ∧
        getOp H s x = some (getP s.pts e.2).item) := by
  refine ⟨?_, ?_, ?_⟩
  · unfold getOp getPoint
    constructor
    · intro h
      split at h
      · exact absurd h (by simp)
      next hg =>
        split at hg
        · exact absurd hg (by simp)
        next hfind =>
          exact List.head?_eq_none_iff.mp hg
    · intro h
      rw [h]
      rfl
  · intro e' he' hd
    obtain ⟨e, he⟩ := treeSuccessor_isSome he' hd
    obtain ⟨h1, h2⟩ := treeSuccessor_min (H.base x) s.ring hs e he
    have hgp : getPoint s.ring (H.base x) = some e := by
      unfold getPoint
      rw [he]
    refine ⟨e, hgp, ?_, h1, h2, ?_⟩
    · exact List.mem_of_find?_eq_some he
    · unfold getOp
      rw [hgp]
  · intro hall hne
    have hfind : treeSuccessor s.ring (H.base x) = none := by
      unfold treeSuccessor
      refine List.find?_eq_none.mpr ?_
      intro f hf
      simp only [decide_eq_true_eq]
      exact not_lt.mpr (hall f hf)
    obtain ⟨e, rest, hcons⟩ := List.exists_cons_of_ne_nil hne
    have hgp : getPoint s.ring (H.base x) = some e := by
      unfold getPoint treeMin
      rw [hfind, hcons]
      rfl
    refine ⟨e, hgp, ?_, ?_, ?_⟩
    · rw [hcons]; exact List.mem_cons_self e rest
    · intro f hf
      rw [hcons] at hf hs
      rcases List.mem_cons.mp hf with hf | hf
      · rw [hf]
      · exact le_of_lt ((List.pairwise_cons.mp hs).1 f hf)
    · unfold getOp
      rw [hgp]

/-- Witness for `claim7_get_semantics` at a concrete two-point ring:
digest 6 maps to the successor (value 9, item 2); digest 20 wraps to the
minimum (value 5, item 1); on the empty ring `Get` is `none`. -/
theorem claim7_get_semantics_witness :
    ((getOp ⟨fun x => x, fun _ g i => g + i⟩
        ⟨[], [((1, 0), ⟨1, 5, []⟩), ((2, 0), ⟨2, 9, []⟩)],
          [(5, (1, 0)), (9, (2, 0))], [], [], 0, 0⟩ 6 = none ↔
        ([(5, ((1, 0) : PointId)), (9, (2, 0))] : Tree) = []) ∧
      (∃ e, getPoint ([(5, ((1, 0) : PointId)), (9, (2, 0))] : Tree) 6 = some e ∧
        e ∈ ([(5, ((1, 0) : PointId)), (9, (2, 0))] : Tree) ∧ 6 < e.1 ∧
        (∀ f ∈ ([(5, ((1, 0) : PointId)), (9, (2, 0))] : Tree), 6 < f.1 → e.1 ≤ f.1) ∧
        getOp ⟨fun x => x, fun _ g i => g + i⟩
          ⟨[], [((1, 0), ⟨1, 5, []⟩), ((2, 0), ⟨2, 9, []⟩)],
            [(5, (1, 0)), (9, (2, 0))], [], [], 0, 0⟩ 6 =
          some (getP [((1, 0), ⟨1, 5, []⟩), ((2, 0), ⟨2, 9, []⟩)] e.2).item)) ∧
    (∃ e, getPoint ([(5, ((1, 0) : PointId)), (9, (2, 0))] : Tree) 20 = some e ∧
      e ∈ ([(5, ((1, 0) : PointId)), (9, (2, 0))] : Tree) ∧
      (∀ f ∈ ([(5, ((1, 0) : PointId)), (9, (2, 0))] : Tree), e.1 ≤ f.1) ∧
      getOp ⟨fun x => x, fun _ g i => g + i⟩
        ⟨[], [((1, 0), ⟨1, 5, []⟩), ((2, 0), ⟨2, 9, []⟩)],
          [(5, (1, 0)), (9, (2, 0))], [], [], 0, 0⟩ 20 =
        some (getP [((1, 0), ⟨1, 5, []⟩), ((2, 0), ⟨2, 9, []⟩)] e.2).item) ∧
    getOp ⟨fun x => x, fun _ g i => g + i⟩ emptyState 3 = none := by
  have hsorted : TSorted ([(5, ((1, 0) : PointId)), (9, (2, 0))] : Tree) := by
    refine List.Pairwise.cons ?_ (List.pairwise_singleton _ _)
    intro b hb
    rw [List.mem_singleton.mp hb]
    decide
  have hc := claim7_get_semantics ⟨fun x => x, fun _ g i => g + i⟩
    ⟨[], [((1, 0), ⟨1, 5, []⟩), ((2, 0), ⟨2, 9, []⟩)],
      [(5, (1, 0)), (9, (2, 0))], [], [], 0, 0⟩ 6 hsorted
  have hc2 := claim7_get_semantics ⟨fun x => x, fun _ g i => g + i⟩
    ⟨[], [((1, 0), ⟨1, 5, []⟩), ((2, 0), ⟨2, 9, []⟩)],
      [(5, (1, 0)), (9, (2, 0))], [], [], 0, 0⟩ 20 hsorted
  have hc3 := claim7_get_semantics ⟨fun x => x, fun _ g i => g + i⟩ emptyState 3
    List.Pairwise.nil
  refine ⟨⟨hc.1, ?_⟩, ?_, ?_⟩
  · exact hc.2.1 (9, (2, 0)) (by decide) (by decide)
  · exact hc2.2.2 (by decide) (by decide)
  · exact hc3.1.mpr rfl

/-!
## Claim C8 — usage errors with atomicity -/

/-- C8.  `Insert` of a present bucket id and `Update`/`Delete` of an
absent one return the corresponding usage error, and in each case the
returned state is the input state itself (no field was modified before
the check). -/
theorem claim8_usage_errors (H : HashFn) (magic fuel : Nat) (s : RState)
    (x : Nat) (w : ℚ) :
    (¬ w ≤ 0 → (∃ b ∈ s.buckets, b.id = H.base x) →
        insertOp H magic fuel s x w = .err "hashring: item already exists" s) ∧
    (¬ w ≤ 0 → (∀ b ∈ s.buckets, ¬ b.id = H.base x) →
        updateOp H magic fuel s x w = .err "hashring: item doesn't exist" s) ∧
    ((∀ b ∈ s.buckets, ¬ b.id = H.base x) →
        deleteOp H magic fuel s x = .err "hashring: item doesn't exist" s) := by
  have habsent : (∀ b ∈ s.buckets, ¬ b.id = H.base x) →
      ∀ w2 : ℚ, updateInner H magic fuel s x w2 = .err "hashring: item doesn't exist" s := by
    intro hall w2
    unfold updateInner
    simp only []
    rw [List.find?_eq_none.mpr (fun b hb => by simp [hall b hb])]
  refine ⟨?_, ?_, ?_⟩
  · intro hw hex
    obtain ⟨b, hb, hbid⟩ := hex
    unfold insertOp
    rw [if_neg hw]
    simp only []
    rw [if_pos (List.any_eq_true.mpr ⟨b, hb, by simp [hbid]⟩)]
  · intro hw hall
    unfold updateOp
    rw [if_neg hw]
    exact habsent hall w
  · intro hall
    exact habsent hall 0

/-- Witness for `claim8_usage_errors` at concrete states. -/
theorem claim8_usage_errors_witness :
    insertOp ⟨fun x => x, fun _ g i => g + i⟩ 1 10
        ⟨[⟨4, 4, 1, 0⟩], [], [], [], [], 1, 1⟩ 4 2
      = .err "hashring: item already exists" ⟨[⟨4, 4, 1, 0⟩], [], [], [], [], 1, 1⟩ ∧
    updateOp ⟨fun x => x, fun _ g i => g + i⟩ 1 10 emptyState 4 2
      = .err "hashring: item doesn't exist" emptyState ∧
    deleteOp ⟨fun x => x, fun _ g i => g + i⟩ 1 10 emptyState 4
      = .err "hashring: item doesn't exist" emptyState := by
  refine ⟨?_, ?_, ?_⟩
  · exact (claim8_usage_errors ⟨fun x => x, fun _ g i => g + i⟩ 1 10
      ⟨[⟨4, 4, 1, 0⟩], [], [], [], [], 1, 1⟩ 4 2).1 (by norm_num)
      ⟨⟨4, 4, 1, 0⟩, by simp, rfl⟩
  · exact (claim8_usage_errors ⟨fun x => x, fun _ g i => g + i⟩ 1 10
      emptyState 4 2).2.1 (by norm_num) (by simp [emptyState])
  · exact (claim8_usage_errors ⟨fun x => x, fun _ g i => g + i⟩ 1 10
      emptyState 4 2).2.2 (by simp [emptyState])

/-!
## Claim C9 — the weight check -/

/-- C9.  `Insert` and `Update` hit the weight panic exactly when the
weight is non-positive: for `w ≤ 0` both panic before touching any
state, and for `w > 0` neither ever produces the weight panic. -/
theorem claim9_weight_panic (H : HashFn) (magic fuel : Nat) (s : RState)
    (x : Nat) (w : ℚ) :
    (w ≤ 0 → insertOp H magic fuel s x w = .weightPanicked ∧
      updateOp H magic fuel s x w = .weightPanicked) ∧
    (0 < w → ¬ insertOp H magic fuel s x w = .weightPanicked ∧
      ¬ updateOp H magic fuel s x w = .weightPanicked) := by
  constructor
  · intro hw
    constructor
    · unfold insertOp
      rw [if_pos hw]
    · unfold updateOp
      rw [if_pos hw]
  · intro hw
    have hnw : ¬ w ≤ 0 := not_le.mpr hw
    constructor
    · unfold insertOp
      rw [if_neg hnw]
      simp only []
      intro hcontra
      split at hcontra
      · exact absurd hcontra (by simp)
      · split at hcontra <;> exact absurd hcontra (by simp)
    · unfold updateOp
      rw [if_neg hnw]
      unfold updateInner
      simp only []
      intro hcontra
      split at hcontra
      · exact absurd hcontra (by simp)
      · split at hcontra <;> exact absurd hcontra (by simp)

/-- Witness for `claim9_weight_panic`: weight 0 panics, weight 2 does
not. -/
theorem claim9_weight_panic_witness :
    (insertOp ⟨fun x => x, fun _ g i => g + i⟩ 1 10 emptyState 4 0 = .weightPanicked ∧
      updateOp ⟨fun x => x, fun _ g i => g + i⟩ 1 10 emptyState 4 0 = .weightPanicked) ∧
    (¬ insertOp ⟨fun x => x, fun _ g i => g + i⟩ 1 10 emptyState 4 2 = .weightPanicked ∧
      ¬ updateOp ⟨fun x => x, fun _ g i => g + i⟩ 1 10 emptyState 4 2 = .weightPanicked) :=
  ⟨(claim9_weight_panic ⟨fun x => x, fun _ g i => g + i⟩ 1 10 emptyState 4 0).1
      (by norm_num),
    (claim9_weight_panic ⟨fun x => x, fun _ g i => g + i⟩ 1 10 emptyState 4 2).2
      (by norm_num)⟩

/-!
## Claim C10 — item identity is the unsuffixed digest -/

/-- Membership after sorted bucket insertion. -/
theorem insertBucket_mem (b : Bucket) :
    ∀ (l : List Bucket) (c : Bucket), c ∈ insertBucket l b ↔ c ∈ l ∨ c = b := by
  intro l
  induction l with
  | nil =>
    intro c
    simp [insertBucket]
  | cons a rest ih =>
    intro c
    unfold insertBucket
    split
    · constructor
      · intro h
        rcases List.mem_cons.mp h with h | h
        · exact Or.inr h
        · exact Or.inl h
      · intro h
        rcases h with h | h
        · exact List.mem_cons.mpr (Or.inr h)
        · exact List.mem_cons.mpr (Or.inl h)
    · constructor
      · intro h
        rcases List.mem_cons.mp h with h | h
        · exact Or.inl (List.mem_cons.mpr (Or.inl h))
        · rcases (ih c).mp h with h | h
          · exact Or.inl (List.mem_cons.mpr (Or.inr h))
          · exact Or.inr h
      · intro h
        rcases h with h | h
        · rcases List.mem_cons.mp h with h | h
          · exact List.mem_cons.mpr (Or.inl h)
          · exact List.mem_cons.mpr (Or.inr ((ih c).mpr (Or.inl h)))
        · exact List.mem_cons.mpr (Or.inr ((ih c).mpr (Or.inr h)))

/-- A bucket id is "live" in a buckets list: present, and never with
weight 0. -/
def BLive (bs : List Bucket) (id : Nat) : Prop :=
  (∃ b ∈ bs, b.id = id) ∧ ∀ b ∈ bs, b.id = id → ¬ b.weight = 0

/-- One bucket-reconciliation step keeps a live id live: weights are
never modified, and the weight-0 removal cannot fire on a live id. -/
theorem processBucket_blive {H : HashFn} {fuel : Nat} {numF : ℚ → ℤ}
    {s : RState} {tree : Tree} {bid : Nat} {s' : RState} {tree' : Tree}
    (hs : TSorted tree)
    (h : processBucket H fuel numF s tree bid = .ok (s', tree')) (id : Nat)
    (hb : BLive s.buckets id) : BLive s'.buckets id := by
  unfold processBucket at h
  split at h
  · cases h; exact hb
  next b heqf =>
    simp only [] at h
    split at h
    · exact absurd h (by simp)
    next s1 tree1 np1 heq1 =>
      obtain ⟨hs1, hb1⟩ := shrinkB_inv b.npoints s tree hs heq1
      split at h
      · exact absurd h (by simp)
      next s2 tree2 np2 heq2 =>
        obtain ⟨hs2, hb2⟩ := growB_inv _ _ s1 tree1 hs1 heq2
        cases h
        have hbeq : s2.buckets = s.buckets := hb2.trans hb1
        have hmap : BLive (setBucketNp s2.buckets bid np2) id := by
          rw [hbeq]
          obtain ⟨⟨b0, hb0, hb0id⟩, hall⟩ := hb
          constructor
          · refine ⟨if b0.id = bid then { b0 with npoints := np2 } else b0, ?_, ?_⟩
            · exact List.mem_map.mpr ⟨b0, hb0, rfl⟩
            · split <;> simpa using hb0id
          · intro c hc hcid
            obtain ⟨c0, hc0, hc0eq⟩ := List.mem_map.mp hc
            have hcw : c.weight = c0.weight := by
              rw [← hc0eq]
              split <;> rfl
            have hcid0 : c0.id = id := by
              rw [← hcid, ← hc0eq]
              split <;> rfl
            rw [hcw]
            exact hall c0 hc0 hcid0
        split
        next hw0 =>
          -- b.weight = 0: the found bucket for bid is weight-0, so bid
          -- cannot be the live id; the filter only removes id = bid.
          have hbmem : b ∈ s.buckets := List.mem_of_find?_eq_some heqf
          have hbid : b.id = bid := by
            have := List.find?_some heqf
            simpa using this
          have hbidne : ¬ bid = id := by
            intro hcontra
            exact hb.2 b hbmem (hbid.trans hcontra) hw0
          obtain ⟨⟨b1, hb1m, hb1id⟩, hall1⟩ := hmap
          constructor
          · refine ⟨b1, ?_, hb1id⟩
            refine List.mem_filter.mpr ⟨hb1m, ?_⟩
            simp only [decide_eq_true_eq]
            intro hcontra
            exact hbidne (hcontra.symm.trans hb1id)
          · intro c hc hcid
            exact hall1 c (List.mem_filter.mp hc).1 hcid
        · exact hmap

/-- A full bucket pass keeps a live id live. -/
theorem bucketPass_blive {H : HashFn} {fuel : Nat} {numF : ℚ → ℤ} :
    ∀ (ids : List Nat) (s : RState) (tree : Tree) {s' : RState} {tree' : Tree},
      TSorted tree → bucketPass H fuel numF ids s tree = .ok (s', tree') →
      ∀ id, BLive s.buckets id → BLive s'.buckets id := by
  intro ids
  induction ids with
  | nil =>
    intro s tree s' tree' _ h id hb
    cases h; exact hb
  | cons bid rest ih =>
    intro s tree s' tree' hs h id hb
    unfold bucketPass at h
    split at h
    · exact absurd h (by simp)
    next s1 tree1 heq =>
      exact ih _ _ (processBucket_sorted hs heq) h id
        (processBucket_blive hs heq id hb)

/-- The rebuild loop keeps a live id live. -/
theorem rebuildLoop_blive {H : HashFn} {numF : ℚ → ℤ} :
    ∀ (fuel : Nat) (s : RState) (tree : Tree) {s' : RState} {tree' : Tree},
      TSorted tree → rebuildLoop H numF fuel s tree = .ok (s', tree') →
      ∀ id, BLive s.buckets id → BLive s'.buckets id := by
  intro fuel
  induction fuel with
  | zero =>
    intro s tree s' tree' _ h
    exact absurd h (by simp [rebuildLoop])
  | succ n ih =>
    intro s tree s' tree' hs h id hb
    unfold rebuildLoop at h
    split at h
    · exact absurd h (by simp)
    next s1 tree1 heq =>
      have hs1 := bucketPass_sorted _ s tree hs heq
      have hb1 := bucketPass_blive _ s tree hs heq id hb
      split at h
      · exact absurd h (by simp)
      next s2 tree2 heq2 =>
        obtain ⟨hs2, hbeq2, hf2⟩ := drain_inv n s1 tree1 hs1 heq2
        have hb2 : BLive s2.buckets id := by rw [hbeq2]; exact hb1
        rw [if_pos hf2] at h
        cases h
        exact hb2

/-- `rebuild` keeps a live id live. -/
theorem rebuild_blive {H : HashFn} {magic fuel : Nat} {s s' : RState}
    (hs : TSorted s.ring) (h : rebuild H magic fuel s = .ok s') (id : Nat)
    (hb : BLive s.buckets id) : BLive s'.buckets id := by
  unfold rebuild at h
  split at h
  · exact absurd h (by simp)
  next numF heq =>
    split at h
    · exact absurd h (by simp)
    next s1 tree heq1 =>
      cases h
      exact rebuildLoop_blive fuel s s.ring hs heq1 id hb

/-- C10.  Item identity at the public interface is the unsuffixed digest
alone: when two items hash to the same 64-bit digest, inserting the
second after a successful insert of the first yields the duplicate-item
error, `Has` answers identically for both, and `Update`/`Delete` on
either are literally the same operation on the state. -/
theorem claim10_digest_identity (H : HashFn) (magic fuel : Nat) (s : RState)
    (x y : Nat) (hxy : H.base x = H.base y) (hs : TSorted s.ring) :
    (∀ (w w2 : ℚ) (s' : RState), insertOp H magic fuel s x w = .ok s' → ¬ w2 ≤ 0 →
        insertOp H magic fuel s' y w2 = .err "hashring: item already exists" s') ∧
    hasOp H s x = hasOp H s y ∧
    (∀ w : ℚ, updateInner H magic fuel s x w = updateInner H magic fuel s y w) ∧
    deleteOp H magic fuel s x = deleteOp H magic fuel s y := by
  refine ⟨?_, ?_, ?_, ?_⟩
  · intro w w2 s' h hw2
    unfold insertOp at h
    split at h
    · exact absurd h (by simp)
    next hwle =>
      simp only [] at h
      split at h
      · exact absurd h (by simp)
      next hnotany =>
        split at h
        next s3 heq =>
          cases h
          have hlive : BLive (insertBucket s.buckets ⟨H.base x, x, w, 0⟩) (H.base x) := by
            constructor
            · exact ⟨⟨H.base x, x, w, 0⟩,
                (insertBucket_mem _ s.buckets _).mpr (Or.inr rfl), rfl⟩
            · intro c hc hcid
              rcases (insertBucket_mem _ s.buckets c).mp hc with hc | hc
              · exfalso
                apply hnotany
                exact List.any_eq_true.mpr ⟨c, hc, by simp [hcid]⟩
              · rw [hc]
                simpa using fun h0 => hwle (le_of_eq h0)
          have hlive3 := rebuild_blive (by exact hs) heq (H.base x) hlive
          obtain ⟨⟨b1, hb1m, hb1id⟩, _⟩ := hlive3
          unfold insertOp
          rw [if_neg hw2]
          simp only []
          rw [if_pos (List.any_eq_true.mpr ⟨b1, hb1m, by simp [hb1id, ← hxy]⟩)]
        · exact absurd h (by simp)
  · unfold hasOp
    rw [hxy]
  · intro w
    unfold updateInner
    rw [hxy]
  · unfold deleteOp updateInner
    rw [hxy]

unseal Rat.mul Rat.add Rat.sub Rat.inv in
/-- Witness for `claim10_digest_identity`: items 4 and 44 collide under
`base = (· % 40)`; after inserting item 4 into the empty ring, inserting
item 44 is rejected as a duplicate, and `Has`/`Delete` treat the two
items alike. -/
theorem claim10_digest_identity_witness :
    (insertOp ⟨fun x => x % 40, fun x g i => 100 * x + 10 * g + i⟩ 1 10
        ⟨[⟨4, 4, 1, 1⟩], [((4, 0), ⟨4, 400, []⟩)], [(400, (4, 0))], [], [], 1, 1⟩ 44 2
      = .err "hashring: item already exists"
          ⟨[⟨4, 4, 1, 1⟩], [((4, 0), ⟨4, 400, []⟩)], [(400, (4, 0))], [], [], 1, 1⟩) ∧
    (hasOp ⟨fun x => x % 40, fun x g i => 100 * x + 10 * g + i⟩ emptyState 4
      = hasOp ⟨fun x => x % 40, fun x g i => 100 * x + 10 * g + i⟩ emptyState 44) ∧
    (deleteOp ⟨fun x => x % 40, fun x g i => 100 * x + 10 * g + i⟩ 1 10 emptyState 4
      = deleteOp ⟨fun x => x % 40, fun x g i => 100 * x + 10 * g + i⟩ 1 10
          emptyState 44) := by
  have hc := claim10_digest_identity ⟨fun x => x % 40, fun x g i => 100 * x + 10 * g + i⟩
    1 10 emptyState 4 44 (by decide) List.Pairwise.nil
  refine ⟨?_, hc.2.1, hc.2.2.2⟩
  · refine hc.1 1 2
      ⟨[⟨4, 4, 1, 1⟩], [((4, 0), ⟨4, 400, []⟩)], [(400, (4, 0))], [], [], 1, 1⟩ ?_
      (by norm_num)
    decide

end Hashring
